import Mathlib

/-!
Shallow embedding of the Python analysis engine that the repository embeds
in its Pyodide web worker: a streaming BAM reader, a windowed coverage
aggregator, two CNV detectors (manual and adaptive thresholds) and a
pileup-based variant caller.  Machine floats of the source are modelled as
exact rationals; `np.std x < c` comparisons are encoded as variance
comparisons `var x < c ^ 2`, which is equivalent for the nonnegative
cutoffs used by the source.
-/

set_option maxHeartbeats 1000000
set_option maxRecDepth 100000
set_option linter.unusedVariables false

/-- CoverageWindow record built by `analyze_bam_coverage`: chromosome,
start, end (exclusive), raw coverage count and median-normalized
coverage.  The source dict key `end` is called `stop` here because `end`
is reserved in Lean. -/
structure Window where
  chromosome : String
  start : Nat
  stop : Nat
  coverage : Nat
  normalized : ℚ
deriving DecidableEq

/-- CNV region type, the source strings 'amplification' and 'deletion'. -/
inductive CnvType
  | amplification
  | deletion
deriving DecidableEq

/-- Confidence levels, the source strings 'low', 'medium', 'high'. -/
inductive Confidence
  | low
  | medium
  | high
deriving DecidableEq

/-- Coverage classes computed by `analyze_bam_coverage` from the median
raw coverage, the source strings "low", "medium", "high". -/
inductive CovClass
  | low
  | medium
  | high
deriving DecidableEq

/-- Arithmetic mean (`np.mean`) over rationals; `0` on the empty list
(the source never takes the mean of an empty list). -/
def np_mean (l : List ℚ) : ℚ := l.sum / (l.length : ℚ)

/-- Population variance, the square of `np.std`.  The source only ever
compares `np.std x` against nonnegative cutoffs `c`, which is encoded
here as `np_var x < c ^ 2`. -/
def np_var (l : List ℚ) : ℚ := np_mean (l.map fun x => (x - np_mean l) ^ 2)

/-- Median (`np.median`): middle element of the sorted list for odd
length, average of the two middle elements for even length. -/
def np_median (l : List ℚ) : ℚ :=
  let s := l.insertionSort (· ≤ ·)
  if l.length % 2 = 1 then s.getD (l.length / 2) 0
  else (s.getD (l.length / 2 - 1) 0 + s.getD (l.length / 2) 0) / 2

/-- In-progress CNV region (the source dict `current_cnv`). -/
structure CnvCur where
  chromosome : String
  start : Nat
  stop : Nat
  type : CnvType
  windows : List Window
deriving DecidableEq

/-- Emitted CNV region (result of `summarize_cnv_manual` / `summarize_cnv`). -/
structure CnvCall where
  chromosome : String
  start : Nat
  stop : Nat
  length : Int
  type : CnvType
  avgCoverage : ℚ
  copyNumber : ℚ
  confidence : Confidence
  num_windows : Nat
deriving DecidableEq

/-- Port of `summarize_cnv_manual` (manual mode summary).  Note the
source sets `copyNumber` to the mean normalized coverage itself, with no
diploid doubling; `median_cov` is a parameter the source never uses. -/
def summarize_cnv_manual (cnv : CnvCur) (median_cov : ℚ) : CnvCall :=
  let windows := cnv.windows
  let coverages := windows.map fun w => (w.coverage : ℚ)
  let normalized := windows.map (·.normalized)
  let avg_norm := np_mean normalized
  let var_norm := np_var normalized
  let confidence :=
    if 7 ≤ windows.length ∧ var_norm < 9 / 100 then Confidence.high
    else if 3 ≤ windows.length ∧ var_norm < 1 / 4 then Confidence.medium
    else Confidence.low
  { chromosome := cnv.chromosome, start := cnv.start, stop := cnv.stop,
    length := (cnv.stop : Int) - (cnv.start : Int), type := cnv.type,
    avgCoverage := np_mean coverages, copyNumber := avg_norm,
    confidence := confidence, num_windows := windows.length }

/-- Port of `summarize_cnv` (adaptive mode summary): confidence bands
depend on the coverage class and `copyNumber` is the mean normalized
coverage times 2 ("Assume diploid"). -/
def summarize_cnv (cnv : CnvCur) (median_cov : ℚ) (coverage_cls : CovClass) : CnvCall :=
  let windows := cnv.windows
  let coverages := windows.map fun w => (w.coverage : ℚ)
  let normalized := windows.map (·.normalized)
  let avg_norm := np_mean normalized
  let var_norm := np_var normalized
  let confidence :=
    match coverage_cls with
    | CovClass.low =>
      if 10 ≤ windows.length ∧ var_norm < 9 / 100 then Confidence.high
      else if 5 ≤ windows.length ∧ var_norm < 1 / 4 then Confidence.medium
      else Confidence.low
    | CovClass.medium =>
      if 7 ≤ windows.length ∧ var_norm < 9 / 100 then Confidence.high
      else if 3 ≤ windows.length ∧ var_norm < 1 / 4 then Confidence.medium
      else Confidence.low
    | CovClass.high =>
      if 5 ≤ windows.length ∧ var_norm < 4 / 25 then Confidence.high
      else if 2 ≤ windows.length ∧ var_norm < 9 / 25 then Confidence.medium
      else Confidence.low
  { chromosome := cnv.chromosome, start := cnv.start, stop := cnv.stop,
    length := (cnv.stop : Int) - (cnv.start : Int), type := cnv.type,
    avgCoverage := np_mean coverages, copyNumber := avg_norm * 2,
    confidence := confidence, num_windows := windows.length }

/-- Amplification test of both detectors: `norm_cov >= amp_threshold`. -/
def win_amp (amp_threshold : ℚ) (w : Window) : Bool :=
  decide (amp_threshold ≤ w.normalized)

/-- Deletion test of both detectors:
`norm_cov <= del_threshold and norm_cov > 0`. -/
def win_del (del_threshold : ℚ) (w : Window) : Bool :=
  decide (w.normalized ≤ del_threshold ∧ 0 < w.normalized)

/-- Scanning loop shared verbatim by `detect_cnvs_manual` and
`detect_cnvs_adaptive` (the two source functions contain the identical
window-merging loop; `summ` is the summary applied on emission).  Note
that in the neutral branch the source resets `current_cnv = None` only
inside the `len >= min_windows` guard, so a sub-minimum in-progress
region survives a neutral window. -/
def scan_step (amp_threshold del_threshold : ℚ) (min_windows : Nat)
    (summ : CnvCur → CnvCall) (cnvs : List CnvCall) (current : Option CnvCur)
    (w : Window) : List CnvCall × Option CnvCur :=
  if win_amp amp_threshold w || win_del del_threshold w then
    let t := if win_amp amp_threshold w then CnvType.amplification else CnvType.deletion
    match current with
    | some c =>
      if c.type = t ∧ c.chromosome = w.chromosome then
        (cnvs, some { c with stop := w.stop, windows := c.windows ++ [w] })
      else
        ((if min_windows ≤ c.windows.length then cnvs ++ [summ c] else cnvs),
          some ⟨w.chromosome, w.start, w.stop, t, [w]⟩)
    | none => (cnvs, some ⟨w.chromosome, w.start, w.stop, t, [w]⟩)
  else
    match current with
    | some c =>
      if min_windows ≤ c.windows.length then (cnvs ++ [summ c], none)
      else (cnvs, some c)
    | none => (cnvs, none)

/-- Recursion over the window list; after the loop, the pending region is
emitted iff it has at least `min_windows` windows ("Close last CNV"). -/
def scan_cnvs (amp_threshold del_threshold : ℚ) (min_windows : Nat)
    (summ : CnvCur → CnvCall) (cnvs : List CnvCall) (current : Option CnvCur) :
    List Window → List CnvCall
  | [] =>
    match current with
    | some c => if min_windows ≤ c.windows.length then cnvs ++ [summ c] else cnvs
    | none => cnvs
  | w :: rest =>
    let s := scan_step amp_threshold del_threshold min_windows summ cnvs current w
    scan_cnvs amp_threshold del_threshold min_windows summ s.1 s.2 rest

/-- Port of `detect_cnvs_manual`. -/
def detect_cnvs_manual (windows : List Window) (amp_threshold del_threshold : ℚ)
    (min_windows : Nat) (median_cov : ℚ) : List CnvCall :=
  scan_cnvs amp_threshold del_threshold min_windows
    (fun c => summarize_cnv_manual c median_cov) [] none windows

/-- Threshold table inlined in `detect_cnvs_adaptive`:
amplification threshold, deletion threshold, minimum window count. -/
def adaptive_thresholds : CovClass → ℚ × ℚ × Nat
  | CovClass.low => (2, 3 / 10, 5)
  | CovClass.medium => (3 / 2, 1 / 2, 3)
  | CovClass.high => (13 / 10, 7 / 10, 2)

/-- Port of `detect_cnvs_adaptive`. -/
def detect_cnvs_adaptive (windows : List Window) (coverage_cls : CovClass)
    (median_cov : ℚ) : List CnvCall :=
  let t := adaptive_thresholds coverage_cls
  scan_cnvs t.1 t.2.1 t.2.2 (fun c => summarize_cnv c median_cov coverage_cls) [] none windows

/-- Coverage classification inlined in `analyze_bam_coverage`:
`median < 15` is low, `median < 30` is medium, else high. -/
def coverage_class (median_cov : ℚ) : CovClass :=
  if median_cov < 15 then CovClass.low
  else if median_cov < 30 then CovClass.medium
  else CovClass.high

/-- Windows held by the optional in-progress region. -/
def cur_windows : Option CnvCur → List Window
  | none => []
  | some c => c.windows

/-- Every call produced by the scanning loop either was already in the
accumulator or is the summary of a region whose window list is nonempty,
has at least `min_windows` entries, and is a sublist of the scanned
windows (prefixed by the windows of the incoming in-progress region). -/
theorem scan_cnvs_mem (amp del : ℚ) (minW : Nat) (summ : CnvCur → CnvCall) :
    ∀ (ws : List Window) (cnvs : List CnvCall) (cur : Option CnvCur),
      (∀ c, cur = some c → c.windows ≠ []) →
      ∀ r ∈ scan_cnvs amp del minW summ cnvs cur ws,
        r ∈ cnvs ∨ ∃ c : CnvCur, r = summ c ∧ minW ≤ c.windows.length ∧
          c.windows ≠ [] ∧ c.windows.Sublist (cur_windows cur ++ ws) := by
  intro ws
  induction ws with
  | nil =>
    intro cnvs cur hcur r hr
    cases cur with
    | none =>
      simp only [scan_cnvs] at hr
      exact Or.inl hr
    | some c =>
      simp only [scan_cnvs] at hr
      by_cases h : minW ≤ c.windows.length
      · rw [if_pos h] at hr
        rcases List.mem_append.mp hr with h1 | h1
        · exact Or.inl h1
        · exact Or.inr ⟨c, List.mem_singleton.mp h1, h, hcur c rfl, by
            simp [cur_windows]⟩
      · rw [if_neg h] at hr
        exact Or.inl hr
  | cons w rest ih =>
    intro cnvs cur hcur r hr
    rw [scan_cnvs] at hr
    by_cases hcls : (win_amp amp w || win_del del w) = true
    · cases cur with
      | none =>
        simp only [scan_step, hcls, if_true] at hr
        rcases ih cnvs (some ⟨w.chromosome, w.start, w.stop,
            if win_amp amp w = true then CnvType.amplification else CnvType.deletion, [w]⟩)
            (by intro c hc; cases hc; simp) r hr with h1 | ⟨c0, he, hle, hne, hsub⟩
        · exact Or.inl h1
        · exact Or.inr ⟨c0, he, hle, hne, by simpa [cur_windows] using hsub⟩
      | some c =>
        by_cases hsame : c.type = (if win_amp amp w = true then CnvType.amplification
            else CnvType.deletion) ∧ c.chromosome = w.chromosome
        · simp only [scan_step, hcls, if_true, hsame, and_self, if_pos] at hr
          rcases ih cnvs _ (by intro c0 hc0; cases hc0; simp) r hr
              with h1 | ⟨c0, he, hle, hne, hsub⟩
          · exact Or.inl h1
          · refine Or.inr ⟨c0, he, hle, hne, ?_⟩
            simpa [cur_windows, List.append_assoc] using hsub
        · simp only [scan_step, hcls, if_true, hsame, if_false] at hr
          rcases ih (if minW ≤ c.windows.length then cnvs ++ [summ c] else cnvs)
              (some ⟨w.chromosome, w.start, w.stop,
                if win_amp amp w = true then CnvType.amplification else CnvType.deletion, [w]⟩)
              (by intro c0 hc0; cases hc0; simp) r hr with h1 | ⟨c0, he, hle, hne, hsub⟩
          · by_cases hg : minW ≤ c.windows.length
            · rw [if_pos hg] at h1
              rcases List.mem_append.mp h1 with h2 | h2
              · exact Or.inl h2
              · exact Or.inr ⟨c, List.mem_singleton.mp h2, hg, hcur c rfl,
                  List.sublist_append_left c.windows (w :: rest)⟩
            · rw [if_neg hg] at h1
              exact Or.inl h1
          · refine Or.inr ⟨c0, he, hle, hne, ?_⟩
            refine List.Sublist.trans (by simpa [cur_windows] using hsub) ?_
            exact List.sublist_append_right c.windows (w :: rest)
    · cases cur with
      | none =>
        simp only [scan_step, hcls, if_false] at hr
        rcases ih cnvs none (by intro c hc; cases hc) r hr with h1 | ⟨c0, he, hle, hne, hsub⟩
        · exact Or.inl h1
        · refine Or.inr ⟨c0, he, hle, hne, ?_⟩
          refine List.Sublist.trans (by simpa [cur_windows] using hsub) ?_
          simp only [cur_windows, List.nil_append]
          exact List.sublist_cons_self w rest
      | some c =>
        by_cases hg : minW ≤ c.windows.length
        · simp only [scan_step, hcls, if_false, hg, if_pos] at hr
          rcases ih (cnvs ++ [summ c]) none (by intro c0 hc0; cases hc0) r hr
              with h1 | ⟨c0, he, hle, hne, hsub⟩
          · rcases List.mem_append.mp h1 with h2 | h2
            · exact Or.inl h2
            · exact Or.inr ⟨c, List.mem_singleton.mp h2, hg, hcur c rfl,
                List.sublist_append_left c.windows (w :: rest)⟩
          · refine Or.inr ⟨c0, he, hle, hne, ?_⟩
            refine List.Sublist.trans (by simpa [cur_windows] using hsub) ?_
            exact List.Sublist.trans (List.sublist_cons_self w rest)
              (List.sublist_append_right c.windows (w :: rest))
        · simp only [scan_step, hcls, if_false, hg, if_neg] at hr
          rcases ih cnvs (some c) hcur r hr with h1 | ⟨c0, he, hle, hne, hsub⟩
          · exact Or.inl h1
          · refine Or.inr ⟨c0, he, hle, hne, ?_⟩
            refine List.Sublist.trans hsub ?_
            simp only [cur_windows]
            exact (List.append_sublist_append_left c.windows).mpr
              (List.sublist_cons_self w rest)

/-- C1: the code contradicts the claim at a concrete input.  With manual
thresholds amp=1.5, del=0.5, min_windows=2 and one chromosome whose three
windows have normalized coverages [2, 1, 2] (the middle window is
neutral), the detector emits one region spanning [0, 30000) whose span
contains the neutral window [10000, 20000): the sub-minimum in-progress
region is NOT closed and dropped at the neutral window; it is kept open
and extended across the gap, so the emitted region spans a neutral window
and its two constituent windows are not consecutive. -/
theorem C1_neutral_window_not_closing :
    detect_cnvs_manual
      [⟨"c", 0, 10000, 20, 2⟩, ⟨"c", 10000, 20000, 10, 1⟩, ⟨"c", 20000, 30000, 20, 2⟩]
      (3 / 2) (1 / 2) 2 10 =
      [⟨"c", 0, 30000, 30000, CnvType.amplification, 20, 2, Confidence.low, 2⟩] ∧
    win_amp (3 / 2) ⟨"c", 10000, 20000, 10, 1⟩ = false ∧
    win_del (1 / 2) ⟨"c", 10000, 20000, 10, 1⟩ = false := by
  refine ⟨?_, ?_, ?_⟩
  · norm_num [detect_cnvs_manual, scan_cnvs, scan_step, win_amp, win_del,
      summarize_cnv_manual, np_mean, np_var]
  · norm_num [win_amp]
  · norm_num [win_del]

/-- C3 counterexample: at the boundary median 30 the source selects the
high coverage class with thresholds (1.3, 0.7, 2), not the medium class
thresholds (1.5, 0.5, 3) that the claimed table row "15-30x" requires. -/
theorem C3_boundary_median_30_counterexample :
    coverage_class 30 = CovClass.high ∧
    adaptive_thresholds (coverage_class 30) = (13 / 10, 7 / 10, 2) ∧
    adaptive_thresholds (coverage_class 30) ≠ (3 / 2, 1 / 2, 3) := by
  refine ⟨by decide, rfl, ?_⟩
  intro h
  have h1 : (13 / 10 : ℚ) = 3 / 2 := congrArg Prod.fst h
  norm_num at h1

/-- C3 amended: the adaptive thresholds as a function of the median raw
coverage are (2, 0.3, 5) for median < 15, (1.5, 0.5, 3) for
15 ≤ median < 30, and (1.3, 0.7, 2) for median ≥ 30; the boundary median
15 falls in the medium class as the table states, but the boundary
median 30 falls in the high class, not the medium class. -/
theorem C3_adaptive_threshold_selection (m : ℚ) :
    (m < 15 → adaptive_thresholds (coverage_class m) = (2, 3 / 10, 5)) ∧
    (15 ≤ m → m < 30 → adaptive_thresholds (coverage_class m) = (3 / 2, 1 / 2, 3)) ∧
    (30 ≤ m → adaptive_thresholds (coverage_class m) = (13 / 10, 7 / 10, 2)) := by
  refine ⟨fun h => ?_, fun h1 h2 => ?_, fun h => ?_⟩
  · rw [coverage_class, if_pos h]
    rfl
  · rw [coverage_class, if_neg (not_lt.mpr h1), if_pos h2]
    rfl
  · rw [coverage_class, if_neg (not_lt.mpr (by linarith)), if_neg (not_lt.mpr h)]
    rfl

/-- C3 witness: instantiation of the amended selection rule at the
boundary median 15, which selects the medium class thresholds. -/
theorem C3_adaptive_threshold_selection_witness :
    ((15 : ℚ) ≤ 15 ∧ (15 : ℚ) < 30) ∧
    adaptive_thresholds (coverage_class 15) = (3 / 2, 1 / 2, 3) :=
  ⟨⟨by norm_num, by norm_num⟩,
    (C3_adaptive_threshold_selection 15).2.1 (by norm_num) (by norm_num)⟩

/-- C7: the minimum window count is a hard filter in both modes: every
region emitted by the manual detector has `num_windows ≥ min_windows`,
and every region emitted by the adaptive detector has `num_windows` at
least the minimum of its coverage class. -/
theorem C7_min_windows_hard_filter (windows : List Window)
    (amp_threshold del_threshold median_cov : ℚ) (min_windows : Nat)
    (coverage_cls : CovClass) :
    (∀ r ∈ detect_cnvs_manual windows amp_threshold del_threshold min_windows median_cov,
      min_windows ≤ r.num_windows) ∧
    (∀ r ∈ detect_cnvs_adaptive windows coverage_cls median_cov,
      (adaptive_thresholds coverage_cls).2.2 ≤ r.num_windows) := by
  constructor
  · intro r hr
    simp only [detect_cnvs_manual] at hr
    rcases scan_cnvs_mem amp_threshold del_threshold min_windows
        (fun c => summarize_cnv_manual c median_cov) windows [] none
        (by intro c hc; cases hc) r hr with h1 | ⟨c, he, hle, hne, hsub⟩
    · exact absurd h1 (List.not_mem_nil r)
    · rw [he]
      simpa [summarize_cnv_manual] using hle
  · intro r hr
    simp only [detect_cnvs_adaptive] at hr
    rcases scan_cnvs_mem (adaptive_thresholds coverage_cls).1
        (adaptive_thresholds coverage_cls).2.1 (adaptive_thresholds coverage_cls).2.2
        (fun c => summarize_cnv c median_cov coverage_cls) windows [] none
        (by intro c hc; cases hc) r hr with h1 | ⟨c, he, hle, hne, hsub⟩
    · exact absurd h1 (List.not_mem_nil r)
    · rw [he]
      simpa [summarize_cnv] using hle

/-- C7 witness: the manual detector at min_windows = 2 on two adjacent
amplified windows emits a region with num_windows = 2 ≥ 2. -/
theorem C7_min_windows_hard_filter_witness :
    (2 : Nat) ≤ (⟨"c", 0, 30000, 30000, CnvType.amplification, 20, 2,
      Confidence.low, 2⟩ : CnvCall).num_windows :=
  (C7_min_windows_hard_filter
    [⟨"c", 0, 10000, 20, 2⟩, ⟨"c", 10000, 20000, 10, 1⟩, ⟨"c", 20000, 30000, 20, 2⟩]
    (3 / 2) (1 / 2) 10 2 CovClass.high).1 _
    (by norm_num [detect_cnvs_manual, scan_cnvs, scan_step, win_amp, win_del,
      summarize_cnv_manual, np_mean, np_var])

/-- C2 counterexample: in manual mode the source assigns
`copyNumber = avg_norm` with no diploid doubling.  A single amplified
window with normalized coverage 2 (min_windows = 1) is emitted with
copyNumberEstimate 2, while the mean normalized coverage times 2 is 4. -/
theorem C2_manual_counterexample :
    detect_cnvs_manual [⟨"c", 0, 10000, 20, 2⟩] (3 / 2) (1 / 2) 1 10 =
      [⟨"c", 0, 10000, 10000, CnvType.amplification, 20, 2, Confidence.low, 1⟩] ∧
    np_mean (([⟨"c", 0, 10000, 20, 2⟩] : List Window).map (·.normalized)) * 2 = 4 ∧
    (2 : ℚ) ≠ 4 := by
  refine ⟨?_, ?_, by norm_num⟩
  · norm_num [detect_cnvs_manual, scan_cnvs, scan_step, win_amp, win_del,
      summarize_cnv_manual, np_mean, np_var]
  · norm_num [np_mean]

/-- C2 amended: every region emitted by the adaptive detector carries
`copyNumber` equal to the mean normalized coverage of its constituent
windows (a nonempty sublist of the scanned windows) times 2; every
region emitted by the manual detector carries the mean normalized
coverage itself, with no doubling. -/
theorem C2_copy_number_estimate (windows : List Window)
    (amp_threshold del_threshold median_cov : ℚ) (min_windows : Nat)
    (coverage_cls : CovClass) :
    (∀ r ∈ detect_cnvs_adaptive windows coverage_cls median_cov,
      ∃ cw : List Window, cw ≠ [] ∧ cw.Sublist windows ∧ r.num_windows = cw.length ∧
        r.copyNumber = np_mean (cw.map (·.normalized)) * 2) ∧
    (∀ r ∈ detect_cnvs_manual windows amp_threshold del_threshold min_windows median_cov,
      ∃ cw : List Window, cw ≠ [] ∧ cw.Sublist windows ∧ r.num_windows = cw.length ∧
        r.copyNumber = np_mean (cw.map (·.normalized))) := by
  constructor
  · intro r hr
    simp only [detect_cnvs_adaptive] at hr
    rcases scan_cnvs_mem (adaptive_thresholds coverage_cls).1
        (adaptive_thresholds coverage_cls).2.1 (adaptive_thresholds coverage_cls).2.2
        (fun c => summarize_cnv c median_cov coverage_cls) windows [] none
        (by intro c hc; cases hc) r hr with h1 | ⟨c, he, hle, hne, hsub⟩
    · exact absurd h1 (List.not_mem_nil r)
    · exact ⟨c.windows, hne, by simpa [cur_windows] using hsub,
        by simp [he, summarize_cnv], by simp [he, summarize_cnv]⟩
  · intro r hr
    simp only [detect_cnvs_manual] at hr
    rcases scan_cnvs_mem amp_threshold del_threshold min_windows
        (fun c => summarize_cnv_manual c median_cov) windows [] none
        (by intro c hc; cases hc) r hr with h1 | ⟨c, he, hle, hne, hsub⟩
    · exact absurd h1 (List.not_mem_nil r)
    · exact ⟨c.windows, hne, by simpa [cur_windows] using hsub,
        by simp [he, summarize_cnv_manual], by simp [he, summarize_cnv_manual]⟩

/-- C2 witness: the adaptive detector (high class) on two adjacent
windows of normalized coverage 2 emits one region whose copyNumber 4 is
the mean normalized coverage 2 of its two constituent windows times 2. -/
theorem C2_copy_number_estimate_witness :
    ∃ cw : List Window, cw ≠ [] ∧
      cw.Sublist [⟨"c", 0, 10000, 30, 2⟩, ⟨"c", 10000, 20000, 30, 2⟩] ∧
      (⟨"c", 0, 20000, 20000, CnvType.amplification, 30, 4, Confidence.medium, 2⟩ :
        CnvCall).num_windows = cw.length ∧
      (⟨"c", 0, 20000, 20000, CnvType.amplification, 30, 4, Confidence.medium, 2⟩ :
        CnvCall).copyNumber = np_mean (cw.map (·.normalized)) * 2 :=
  (C2_copy_number_estimate [⟨"c", 0, 10000, 30, 2⟩, ⟨"c", 10000, 20000, 30, 2⟩]
    0 0 30 0 CovClass.high).1 _
    (by norm_num [detect_cnvs_adaptive, adaptive_thresholds, scan_cnvs, scan_step,
      win_amp, win_del, summarize_cnv, np_mean, np_var])

/-- Alignment record as produced by `SimpleBamReader.read_alignment`
(the fields retained by the source dict). -/
structure Aln where
  refID : Int
  pos : Int
  mapq : Nat
  flag : Nat
  seq : List Char
  qual : List Nat
deriving DecidableEq

/-- Flag bit 0x4: read unmapped. -/
def Aln.is_unmapped (a : Aln) : Bool := a.flag &&& 4 != 0

/-- Flag bit 0x400: PCR/optical duplicate. -/
def Aln.is_duplicate (a : Aln) : Bool := a.flag &&& 1024 != 0

/-- Flag bit 0x100: secondary alignment. -/
def Aln.is_secondary (a : Aln) : Bool := a.flag &&& 256 != 0

/-- Port of `SimpleBamReader.read_bytes` over the decompressed byte
stream: the next `n` bytes when available, else `none` without consuming
(a failed read leaves the position unchanged and a later smaller read
can still succeed).  The BGZF block decompression (`gzip.decompress`) of
the source is Python library code and is abstracted away: the embedding
works on the already-decompressed byte stream. -/
def read_bytes (n : Nat) (s : List Nat) : Option (List Nat × List Nat) :=
  if n ≤ s.length then some (s.take n, s.drop n) else none

/-- Little-endian decoding of 4 bytes as an unsigned 32-bit integer
(`struct.unpack of <I`). -/
def le_u32 (d : List Nat) : Nat :=
  match d with
  | [b0, b1, b2, b3] => b0 + 256 * b1 + 65536 * b2 + 16777216 * b3
  | _ => 0

/-- Little-endian decoding of 4 bytes as a signed 32-bit integer
(`struct.unpack of <i`). -/
def le_i32 (d : List Nat) : Int :=
  let u := le_u32 d
  if u < 2147483648 then (u : Int) else (u : Int) - 4294967296

/-- Read 4 bytes and decode them as an unsigned 32-bit integer. -/
def read_u32 (s : List Nat) : Option (Nat × List Nat) :=
  (read_bytes 4 s).map fun p => (le_u32 p.1, p.2)

/-- The 4-byte BAM magic `b'BAM\x01'`. -/
def bam_magic : List Nat := [66, 65, 77, 1]

/-- Reference-name decoding: drop the trailing NUL byte and decode the
bytes as characters (the source decodes UTF-8; names are ASCII). -/
def decode_name (bytes : List Nat) : String :=
  String.mk (bytes.dropLast.map Char.ofNat)

/-- Reference-list reading loop of `read_header`: for each reference a
length-prefixed NUL-terminated name and a 4-byte length.  Python
exceptions raised on a truncated stream (struct.error / TypeError) are
modelled as `Except.error` with abbreviated messages. -/
def read_refs : Nat → List Nat → List (String × Nat) →
    Except String (List (String × Nat) × List Nat)
  | 0, s, acc => Except.ok (acc.reverse, s)
  | k + 1, s, acc =>
    match read_u32 s with
    | none => Except.error "struct.error: unpack requires a buffer of 4 bytes"
    | some (l_name, s1) =>
      match read_bytes l_name s1 with
      | none => Except.error "TypeError: NoneType is not subscriptable"
      | some (name_bytes, s2) =>
        match read_u32 s2 with
        | none => Except.error "struct.error: unpack requires a buffer of 4 bytes"
        | some (l_ref, s3) => read_refs k s3 ((decode_name name_bytes, l_ref) :: acc)

/-- Port of `SimpleBamReader.read_header`: validate the magic (raising
`ValueError: Not a valid BAM file` otherwise, message abbreviated
without the repr of the bytes read), skip the SAM header text (a failed
skip read is ignored by the source, which discards the result of
`read_bytes(l_text)`), then read the reference list. -/
def read_header (s : List Nat) : Except String (List (String × Nat) × List Nat) :=
  match read_bytes 4 s with
  | none => Except.error "Not a valid BAM file (magic: None)"
  | some (magic, s1) =>
    if magic ≠ bam_magic then Except.error "Not a valid BAM file"
    else
      match read_u32 s1 with
      | none => Except.error "struct.error: unpack requires a buffer of 4 bytes"
      | some (l_text, s2) =>
        let s3 := match read_bytes l_text s2 with
          | some p => p.2
          | none => s2
        match read_u32 s3 with
        | none => Except.error "struct.error: unpack requires a buffer of 4 bytes"
        | some (n_ref, s4) => read_refs n_ref s4 []

/-- BAM 4-bit base alphabet `=ACMGRSVTWYHKDBN`. -/
def seq_lookup : List Char :=
  ['=', 'A', 'C', 'M', 'G', 'R', 'S', 'V', 'T', 'W', 'Y', 'H', 'K', 'D', 'B', 'N']

/-- Sequence decoding of `read_alignment`: for each base index take the
high nibble (even index) or low nibble (odd index) of byte `i / 2`,
skipping indices whose byte is beyond the data actually read. -/
def decode_seq (seq_data : List Nat) (l_seq : Nat) : List Char :=
  (List.range l_seq).filterMap fun i =>
    let byte_idx := i / 2
    if byte_idx < seq_data.length then
      let byte_val := seq_data.getD byte_idx 0
      let base_idx := if i % 2 = 0 then (byte_val >>> 4) &&& 15 else byte_val &&& 15
      some (seq_lookup.getD base_idx '=')
    else none

/-- Port of `SimpleBamReader.read_alignment`.  A failed read of the
block size, core block, read name or CIGAR returns `none` (end of
records); a failed read of the sequence or qualities leaves them empty
but still yields a record, as in the source; trailing tag bytes are
skipped using the record length, ignoring a failed skip. -/
def read_alignment (s : List Nat) : Option (Aln × List Nat) :=
  match read_bytes 4 s with
  | none => none
  | some (block_size_bytes, s1) =>
    let block_size := le_u32 block_size_bytes
    match read_bytes 32 s1 with
    | none => none
    | some (core_data, s2) =>
      let refID := le_i32 (core_data.take 4)
      let pos := le_i32 ((core_data.drop 4).take 4)
      let bin_mq_nl := le_u32 ((core_data.drop 8).take 4)
      let mapq := (bin_mq_nl >>> 8) &&& 255
      let l_read_name := bin_mq_nl &&& 255
      let flag_nc := le_u32 ((core_data.drop 12).take 4)
      let flag := flag_nc >>> 16
      let n_cigar_op := flag_nc &&& 65535
      let l_seq := le_u32 ((core_data.drop 16).take 4)
      match read_bytes l_read_name s2 with
      | none => none
      | some (_, s3) =>
        let cigar_bytes := n_cigar_op * 4
        match read_bytes cigar_bytes s3 with
        | none => none
        | some (_, s4) =>
          let seq_bytes := (l_seq + 1) / 2
          let seq_read := read_bytes seq_bytes s4
          let seq_data := match seq_read with
            | some p => p.1
            | none => []
          let s5 := match seq_read with
            | some p => p.2
            | none => s4
          let seq := if seq_data ≠ [] ∧ 0 < l_seq then decode_seq seq_data l_seq else []
          let qual_read := read_bytes l_seq s5
          let qual_data := match qual_read with
            | some p => p.1
            | none => []
          let s6 := match qual_read with
            | some p => p.2
            | none => s5
          let qual := if qual_data ≠ [] ∧ 0 < l_seq then qual_data else []
          let bytes_read := 32 + l_read_name + cigar_bytes + seq_bytes + l_seq
          let remaining : Int := (block_size : Int) - (bytes_read : Int)
          let s7 := if 0 < remaining then
              match read_bytes remaining.toNat s6 with
              | some p => p.2
              | none => s6
            else s6
          some (⟨refID, pos, mapq, flag, seq, qual⟩, s7)

/-- The source's "read alignments until None" while-loop as a function
of the stream.  Each successful `read_alignment` consumes at least 36
bytes, so fuel `s.length + 1` never runs out before the stream does; the
wrappers below always supply that fuel. -/
def parse_alignments : Nat → List Nat → List Aln
  | 0, _ => []
  | fuel + 1, s =>
    match read_alignment s with
    | none => []
    | some (a, rest) => a :: parse_alignments fuel rest

/-- Chromosome-filter retention: the source keeps chromosome `n` when no
filter list was supplied (an empty Python `chroms` list is falsy and
installs no filter) or when `n` is in the filter set. -/
def chrom_retained (chroms : List String) (n : String) : Bool :=
  chroms.isEmpty || chroms.contains n

/-- Window allocation of `calculate_coverage`: one array of
`(ref_len // window_size) + 1` zero slots per retained chromosome, in
header order (the coverage dict as an association list; reference names
are unique in a valid header, making the representations agree). -/
def init_coverage (refs : List (String × Nat)) (chroms : List String)
    (window_size : Nat) : List (String × List Nat) :=
  refs.filterMap fun p =>
    if chrom_retained chroms p.1 then
      some (p.1, List.replicate (p.2 / window_size + 1) 0)
    else none

/-- The increment `coverage[ref_name][window_idx] += 1`, performed only
when `0 <= window_idx < len(coverage[ref_name])`. -/
def bump_cov (ref_name : String) (window_idx : Int)
    (cov : List (String × List Nat)) : List (String × List Nat) :=
  cov.map fun p =>
    if p.1 = ref_name ∧ 0 ≤ window_idx ∧ window_idx < (p.2.length : Int) then
      (p.1, p.2.set window_idx.toNat (p.2.getD window_idx.toNat 0 + 1))
    else p

/-- One iteration of the alignment-streaming loop of
`calculate_coverage`: skip unmapped/duplicate/secondary records, skip
records whose reference index is out of range or resolves to a
chromosome not in the coverage dict, else bump the window
`pos // window_size` (Python floor division). -/
def cov_step (refs : List String) (window_size : Nat)
    (cov : List (String × List Nat)) (a : Aln) : List (String × List Nat) :=
  if a.is_unmapped || a.is_duplicate || a.is_secondary then cov
  else if a.refID < 0 || (refs.length : Int) ≤ a.refID then cov
  else
    let ref_name := refs.getD a.refID.toNat ""
    if (cov.lookup ref_name).isNone then cov
    else bump_cov ref_name (a.pos.fdiv (window_size : Int)) cov

/-- Port of `SimpleBamReader.calculate_coverage` after the header is
read: allocate the windows; if no chromosome matched, return `({}, 0)`
without streaming; else fold the streaming loop over the records,
returning the coverage dict and the total record count. -/
def calculate_coverage_core (refs : List (String × Nat)) (chroms : List String)
    (window_size : Nat) (alns : List Aln) : List (String × List Nat) × Nat :=
  let cov0 := init_coverage refs chroms window_size
  if cov0.isEmpty then ([], 0)
  else (alns.foldl (cov_step (refs.map Prod.fst) window_size) cov0, alns.length)

/-- Port of `SimpleBamReader.calculate_coverage` over the byte stream:
read the header, then stream the alignment records. -/
def calculate_coverage (s : List Nat) (chroms : List String) (window_size : Nat) :
    Except String (List (String × List Nat) × Nat) :=
  match read_header s with
  | Except.error msg => Except.error msg
  | Except.ok (refs, rest) =>
    Except.ok (calculate_coverage_core refs chroms window_size
      (parse_alignments (rest.length + 1) rest))

/-- Window-list construction of `analyze_bam_coverage`: one Window per
array slot in dict order, spanning `[i * W, (i + 1) * W)`, with the raw
count and a normalized value initialized to 0. -/
def build_windows (cov : List (String × List Nat)) (window_size : Nat) : List Window :=
  cov.flatMap fun p =>
    (List.range p.2.length).map fun i =>
      ⟨p.1, i * window_size, (i + 1) * window_size, p.2.getD i 0, 0⟩

/-- Shape of the JSON-ish dict returned by `analyze_bam_coverage`: the
exception handler returns `{'error', 'traceback'}` (the traceback text
modelled by the message), the no-coverage case returns only `{'error'}`,
and the success case carries the analysis fields.  Absent keys are
`none`. -/
structure PyResult where
  error : Option String := none
  traceback : Option String := none
  total_reads : Option Nat := none
  coverageData : Option (List Window) := none
  cnvs : Option (List CnvCall) := none
  windowSize : Option Nat := none
  chromosomes : Option (List String) := none
  coverage_stats : Option (ℚ × ℚ × CovClass) := none
deriving DecidableEq

/-- Port of `analyze_bam_coverage`: compute coverage, build the window
list, take the median of the nonzero raw coverages (error dict
`No coverage data found` when there are none), classify the coverage,
normalize every window by the median, then detect CNVs in manual or
adaptive mode.  Any exception raised during parsing is caught and
returned as an error dict with a traceback. -/
def analyze_bam_coverage (s : List Nat) (window_size : Nat) (chroms : List String)
    (use_manual_thresholds : Bool) (amp_threshold del_threshold : ℚ)
    (min_windows_override : Nat) : PyResult :=
  match calculate_coverage s chroms window_size with
  | Except.error msg => { error := some msg, traceback := some msg }
  | Except.ok (coverage_data, total_reads) =>
    let windows := build_windows coverage_data window_size
    let coverages := (windows.map (·.coverage)).filter (fun c => 0 < c)
    if coverages.isEmpty then { error := some "No coverage data found" }
    else
      let median_cov := np_median (coverages.map fun c => (c : ℚ))
      let mean_cov := np_mean (coverages.map fun c => (c : ℚ))
      let cls := coverage_class median_cov
      let nwindows := windows.map fun w =>
        { w with normalized := if 0 < median_cov then (w.coverage : ℚ) / median_cov else 0 }
      let cnvs :=
        if use_manual_thresholds then
          detect_cnvs_manual nwindows amp_threshold del_threshold min_windows_override
            median_cov
        else detect_cnvs_adaptive nwindows cls median_cov
      { total_reads := some total_reads, coverageData := some nwindows,
        cnvs := some cnvs, windowSize := some window_size,
        chromosomes := some (coverage_data.map Prod.fst),
        coverage_stats := some (median_cov, mean_cov, cls) }

/-- C6: a malformed input (missing/bad magic signature) and an
empty-result input (well-formed header, no coverage) produce
distinguishable dict values from the coverage/CNV entry point: the
format-error dict carries the ValueError message plus a traceback key,
the empty-result dict carries exactly the message 'No coverage data
found' with no traceback, the two values differ, and the format-error
dict contains no window and no CNV output. -/
theorem C6_format_and_empty_errors_distinguishable :
    analyze_bam_coverage [1, 2, 3, 4] 10000 [] false 0 0 0 =
      { error := some "Not a valid BAM file", traceback := some "Not a valid BAM file" } ∧
    analyze_bam_coverage
      [66, 65, 77, 1, 0, 0, 0, 0, 1, 0, 0, 0, 2, 0, 0, 0, 99, 0, 5, 0, 0, 0]
      10000 [] false 0 0 0 = { error := some "No coverage data found" } ∧
    ({ error := some "Not a valid BAM file", traceback := some "Not a valid BAM file" } :
      PyResult) ≠ { error := some "No coverage data found" } ∧
    (analyze_bam_coverage [1, 2, 3, 4] 10000 [] false 0 0 0).coverageData = none ∧
    (analyze_bam_coverage [1, 2, 3, 4] 10000 [] false 0 0 0).cnvs = none := by
  refine ⟨by decide, by decide, by decide, by decide, by decide⟩

theorem lookup_cons_pair {β : Type} (a k : String) (b : β) (es : List (String × β)) :
    ((k, b) :: es).lookup a = if a = k then some b else es.lookup a := by
  rw [List.lookup_cons]
  by_cases h : a = k
  · simp [h]
  · have hb : (a == k) = false := beq_false_of_ne h
    simp [hb, h]

theorem sum_set_getD (l : List Nat) (i : Nat) (h : i < l.length) :
    (l.set i (l.getD i 0 + 1)).sum = l.sum + 1 := by
  induction l generalizing i with
  | nil => simp at h
  | cons x xs ih =>
    cases i with
    | zero => simp [List.getD]; omega
    | succ n =>
      simp only [List.length_cons, Nat.succ_lt_succ_iff] at h
      simp only [List.getD_cons_succ, List.set_cons_succ, List.sum_cons, ih n h]
      omega

theorem fdiv_toNat_eq (p W : Nat) : ((p : Int).fdiv (W : Int)).toNat = p / W := by
  rw [← Int.ofNat_fdiv]
  exact Int.toNat_natCast _

theorem fdiv_window_bound (p L W : Nat) (hW : 0 < W) (hp : p < L) :
    0 ≤ (p : Int).fdiv (W : Int) ∧
    (p : Int).fdiv (W : Int) < ((L / W + 1 : Nat) : Int) := by
  rw [← Int.ofNat_fdiv]
  constructor
  · exact Int.natCast_nonneg _
  · have h1 : p / W ≤ L / W := Nat.div_le_div_right (Nat.le_of_lt hp)
    exact_mod_cast Nat.lt_succ_of_le h1

theorem bump_cov_lookup_ne (ref_name : String) (widx : Int)
    (cov : List (String × List Nat)) (name : String) (h : name ≠ ref_name) :
    (bump_cov ref_name widx cov).lookup name = cov.lookup name := by
  induction cov with
  | nil => rfl
  | cons p rest ih =>
    obtain ⟨k, arr⟩ := p
    simp only [bump_cov, List.map_cons] at *
    by_cases hc : k = ref_name ∧ 0 ≤ widx ∧ widx < (arr.length : Int)
    · rw [if_pos hc]
      rw [lookup_cons_pair, lookup_cons_pair, if_neg (by rw [hc.1]; exact h),
        if_neg (by rw [hc.1] at *; exact h)]
      exact ih
    · rw [if_neg hc, lookup_cons_pair, lookup_cons_pair]
      by_cases hk : name = k
      · rw [if_pos hk, if_pos hk]
      · rw [if_neg hk, if_neg hk]
        exact ih

theorem bump_cov_lookup_eq (ref_name : String) (widx : Int)
    (cov : List (String × List Nat)) (arr : List Nat)
    (hlk : cov.lookup ref_name = some arr) (h0 : 0 ≤ widx)
    (hlt : widx < (arr.length : Int)) :
    (bump_cov ref_name widx cov).lookup ref_name =
      some (arr.set widx.toNat (arr.getD widx.toNat 0 + 1)) := by
  induction cov with
  | nil => simp at hlk
  | cons p rest ih =>
    obtain ⟨k, carr⟩ := p
    rw [lookup_cons_pair] at hlk
    by_cases hk : ref_name = k
    · rw [if_pos hk] at hlk
      cases hlk
      simp only [bump_cov, List.map_cons]
      rw [if_pos ⟨hk.symm, h0, hlt⟩, lookup_cons_pair, if_pos hk]
    · rw [if_neg hk] at hlk
      simp only [bump_cov, List.map_cons]
      by_cases hc : k = ref_name ∧ 0 ≤ widx ∧ widx < (carr.length : Int)
      · exact absurd hc.1.symm hk
      · rw [if_neg hc, lookup_cons_pair, if_neg hk]
        exact ih hlk


/-- Retention test of the specification: an alignment record counts for
chromosome `name` when it is not unmapped, not a duplicate, not
secondary, its reference index is in range, and the reference list
resolves that index to `name`. -/
def retained_to (refs : List String) (name : String) (a : Aln) : Bool :=
  !a.is_unmapped && !a.is_duplicate && !a.is_secondary &&
    decide (0 ≤ a.refID) && decide (a.refID < (refs.length : Int)) &&
    (refs.getD a.refID.toNat "" == name)

theorem cov_step_lookup (refs : List String) (W : Nat)
    (cov : List (String × List Nat)) (a : Aln) (name : String) (arr : List Nat)
    (hlk : cov.lookup name = some arr)
    (hbound : retained_to refs name a = true →
      0 ≤ a.pos.fdiv (W : Int) ∧ a.pos.fdiv (W : Int) < (arr.length : Int)) :
    (cov_step refs W cov a).lookup name =
      if retained_to refs name a then
        some (arr.set (a.pos.fdiv (W : Int)).toNat
          (arr.getD (a.pos.fdiv (W : Int)).toNat 0 + 1))
      else some arr := by
  by_cases h1 : (a.is_unmapped || a.is_duplicate || a.is_secondary) = true
  · have hret : retained_to refs name a = false := by
      simp only [Bool.or_eq_true] at h1
      rcases h1 with (h | h) | h <;>
        simp only [retained_to, h, Bool.not_true, Bool.and_false, Bool.false_and]
    rw [cov_step, if_pos h1, hret, if_neg (by simp)]
    exact hlk
  · by_cases h2 : (decide (a.refID < 0) || decide ((refs.length : Int) ≤ a.refID)) = true
    · have hret : retained_to refs name a = false := by
        simp only [Bool.or_eq_true, decide_eq_true_eq] at h2
        rcases h2 with h | h
        · simp [retained_to, not_le.mpr h]
        · simp [retained_to, not_lt.mpr h]
      rw [cov_step, if_neg h1, if_pos h2, hret, if_neg (by simp)]
      exact hlk
    · simp only [Bool.or_eq_true, decide_eq_true_eq, not_or, not_lt, not_le] at h2
      obtain ⟨hid0, hidlt⟩ := h2
      simp only [Bool.or_eq_true, not_or, Bool.not_eq_true] at h1
      obtain ⟨⟨hu, hd⟩, hs⟩ := h1
      by_cases hname : refs.getD a.refID.toNat "" = name
      · have hret : retained_to refs name a = true := by
          simp only [retained_to, hu, hd, hs, decide_eq_true hid0, decide_eq_true hidlt,
            beq_iff_eq.mpr hname]
          rfl
        have hnn : (cov.lookup (refs.getD a.refID.toNat "")).isNone = false := by
          rw [hname, hlk]
          rfl
        rw [cov_step, if_neg (by simp [hu, hd, hs]),
          if_neg (by simp [not_lt.mpr hid0, not_le.mpr hidlt]),
          if_neg (by intro hcontra; rw [hnn] at hcontra; exact absurd hcontra (by decide)),
          hret, if_pos (by simp)]
        rw [hname]
        exact bump_cov_lookup_eq name _ cov arr hlk (hbound hret).1 (hbound hret).2
      · have hret : retained_to refs name a = false := by
          simp only [retained_to, beq_false_of_ne hname, Bool.and_false]
        rw [cov_step, if_neg (by simp [hu, hd, hs]),
          if_neg (by simp [not_lt.mpr hid0, not_le.mpr hidlt])]
        by_cases hnn : (cov.lookup (refs.getD a.refID.toNat "")).isNone = true
        · rw [if_pos hnn, hret, if_neg (by decide)]
          exact hlk
        · rw [if_neg hnn, bump_cov_lookup_ne _ _ _ _ (fun h => hname h.symm), hret,
            if_neg (by decide)]
          exact hlk

theorem cov_fold_lookup_sum (refs : List String) (W : Nat) (name : String)
    (L : Nat) (hW : 0 < W) :
    ∀ (alns : List Aln) (cov : List (String × List Nat)) (arr : List Nat),
      cov.lookup name = some arr → arr.length = L / W + 1 →
      (∀ a ∈ alns, retained_to refs name a = true → 0 ≤ a.pos ∧ a.pos < (L : Int)) →
      ∃ arr2 : List Nat,
        (alns.foldl (cov_step refs W) cov).lookup name = some arr2 ∧
        arr2.length = L / W + 1 ∧
        arr2.sum = arr.sum + alns.countP (retained_to refs name) := by
  intro alns
  induction alns with
  | nil =>
    intro cov arr h1 h2 h3
    exact ⟨arr, h1, h2, by simp⟩
  | cons a alns ih =>
    intro cov arr h1 h2 h3
    have hbound : retained_to refs name a = true →
        0 ≤ a.pos.fdiv (W : Int) ∧ a.pos.fdiv (W : Int) < (arr.length : Int) := by
      intro hret
      obtain ⟨hp0, hpL⟩ := h3 a (List.mem_cons_self a alns) hret
      have hposn : a.pos = ((a.pos.toNat : Nat) : Int) := (Int.toNat_of_nonneg hp0).symm
      have hpL2 : a.pos.toNat < L := by omega
      obtain ⟨hb1, hb2⟩ := fdiv_window_bound a.pos.toNat L W hW hpL2
      rw [hposn]
      refine ⟨hb1, ?_⟩
      rw [h2]
      exact hb2
    have hstep := cov_step_lookup refs W cov a name arr h1 hbound
    by_cases hret : retained_to refs name a = true
    · rw [if_pos hret] at hstep
      obtain ⟨hp0, hpL⟩ := h3 a (List.mem_cons_self a alns) hret
      have hposn : a.pos = ((a.pos.toNat : Nat) : Int) := (Int.toNat_of_nonneg hp0).symm
      have hidx : (a.pos.fdiv (W : Int)).toNat < arr.length := by
        rw [hposn, fdiv_toNat_eq, h2]
        have hpL2 : a.pos.toNat < L := by omega
        exact Nat.lt_succ_of_le (Nat.div_le_div_right (Nat.le_of_lt hpL2))
      obtain ⟨arr2, hA, hB, hC⟩ := ih _ _ hstep
        (by rw [List.length_set]; exact h2)
        (fun x hx hrx => h3 x (List.mem_cons_of_mem a hx) hrx)
      refine ⟨arr2, by simpa [List.foldl_cons] using hA, hB, ?_⟩
      rw [hC, sum_set_getD arr _ hidx, List.countP_cons]
      simp only [hret, eq_self_iff_true, if_true]
      omega
    · rw [if_neg hret] at hstep
      obtain ⟨arr2, hA, hB, hC⟩ := ih _ _ hstep h2
        (fun x hx hrx => h3 x (List.mem_cons_of_mem a hx) hrx)
      refine ⟨arr2, by simpa [List.foldl_cons] using hA, hB, ?_⟩
      rw [hC, List.countP_cons]
      have hf : retained_to refs name a = false := by
        cases hx : retained_to refs name a
        · rfl
        · exact absurd hx hret
      rw [hf]
      simp

theorem lookup_init_coverage (refs : List (String × Nat)) (chroms : List String)
    (W : Nat) (name : String) (L : Nat)
    (hmem : (name, L) ∈ refs) (hnd : (refs.map Prod.fst).Nodup)
    (hfil : chrom_retained chroms name = true) :
    (init_coverage refs chroms W).lookup name = some (List.replicate (L / W + 1) 0) := by
  induction refs with
  | nil => simp at hmem
  | cons p rest ih =>
    obtain ⟨k, len⟩ := p
    simp only [List.map_cons, List.nodup_cons] at hnd
    rcases List.mem_cons.mp hmem with he | hm
    · cases he
      simp only [init_coverage, List.filterMap_cons, hfil, if_pos]
      rw [lookup_cons_pair, if_pos rfl]
    · have hk : k ≠ name := by
        intro h
        subst h
        exact hnd.1 (List.mem_map_of_mem Prod.fst hm)
      simp only [init_coverage, List.filterMap_cons]
      by_cases hc : chrom_retained chroms k = true
      · rw [hc]
        simp only [if_pos]
        rw [lookup_cons_pair, if_neg (fun h => hk h.symm)]
        exact ih hm hnd.2
      · have hcf : chrom_retained chroms k = false := by
          cases hx : chrom_retained chroms k
          · rfl
          · exact absurd hx hc
        rw [hcf]
        simp only [if_neg, Bool.false_eq_true, reduceIte]
        exact ih hm hnd.2

theorem bump_cov_shape (ref_name : String) (widx : Int) (cov : List (String × List Nat)) :
    (bump_cov ref_name widx cov).map (fun p => (p.1, p.2.length)) =
      cov.map (fun p => (p.1, p.2.length)) := by
  rw [bump_cov, List.map_map]
  apply List.map_congr_left
  intro p hp
  by_cases hc : p.1 = ref_name ∧ 0 ≤ widx ∧ widx < (p.2.length : Int)
  · simp [hc, List.length_set]
  · simp [hc]

theorem cov_step_shape (refs : List String) (W : Nat)
    (cov : List (String × List Nat)) (a : Aln) :
    (cov_step refs W cov a).map (fun p => (p.1, p.2.length)) =
      cov.map (fun p => (p.1, p.2.length)) := by
  rw [cov_step]
  by_cases h1 : (a.is_unmapped || a.is_duplicate || a.is_secondary) = true
  · rw [if_pos h1]
  · rw [if_neg h1]
    by_cases h2 : (decide (a.refID < 0) || decide ((refs.length : Int) ≤ a.refID)) = true
    · rw [if_pos h2]
    · rw [if_neg h2]
      by_cases h3 : (cov.lookup (refs.getD a.refID.toNat "")).isNone = true
      · rw [if_pos h3]
      · rw [if_neg h3]
        exact bump_cov_shape _ _ _

theorem cov_fold_shape (refs : List String) (W : Nat) :
    ∀ (alns : List Aln) (cov : List (String × List Nat)),
      (alns.foldl (cov_step refs W) cov).map (fun p => (p.1, p.2.length)) =
        cov.map (fun p => (p.1, p.2.length)) := by
  intro alns
  induction alns with
  | nil => intro cov; rfl
  | cons a alns ih =>
    intro cov
    rw [List.foldl_cons, ih, cov_step_shape]

theorem init_coverage_keys_sublist (refs : List (String × Nat)) (chroms : List String)
    (W : Nat) :
    ((init_coverage refs chroms W).map Prod.fst).Sublist (refs.map Prod.fst) := by
  induction refs with
  | nil => simp [init_coverage]
  | cons p rest ih =>
    simp only [init_coverage, List.filterMap_cons, List.map_cons]
    by_cases hc : chrom_retained chroms p.1 = true
    · rw [hc]
      simp only [if_pos, List.map_cons]
      exact ih.cons₂ p.1
    · have hcf : chrom_retained chroms p.1 = false := by
        cases hx : chrom_retained chroms p.1
        · rfl
        · exact absurd hx hc
      rw [hcf]
      simp only [Bool.false_eq_true, reduceIte]
      exact ih.cons p.1

theorem build_windows_chrom (W : Nat) (cov : List (String × List Nat)) :
    ∀ w ∈ build_windows cov W, w.chromosome ∈ cov.map Prod.fst := by
  intro w hw
  simp only [build_windows, List.mem_flatMap] at hw
  obtain ⟨p, hp, hw2⟩ := hw
  simp only [List.mem_map] at hw2
  obtain ⟨i, _, rfl⟩ := hw2
  exact List.mem_map_of_mem Prod.fst hp

theorem build_windows_filter (W : Nat) :
    ∀ (cov : List (String × List Nat)) (name : String) (arr : List Nat),
      (cov.map Prod.fst).Nodup → cov.lookup name = some arr →
      (build_windows cov W).filter (fun w => w.chromosome = name) =
        (List.range arr.length).map fun i =>
          ⟨name, i * W, (i + 1) * W, arr.getD i 0, 0⟩ := by
  intro cov
  induction cov with
  | nil =>
    intro name arr hnd hlk
    simp at hlk
  | cons p rest ih =>
    intro name arr hnd hlk
    obtain ⟨k, karr⟩ := p
    simp only [List.map_cons, List.nodup_cons] at hnd
    rw [lookup_cons_pair] at hlk
    have hsplit : build_windows ((k, karr) :: rest) W =
        ((List.range karr.length).map fun i =>
          (⟨k, i * W, (i + 1) * W, karr.getD i 0, 0⟩ : Window)) ++ build_windows rest W := rfl
    rw [hsplit, List.filter_append]
    by_cases hk : name = k
    · rw [if_pos hk] at hlk
      cases hlk
      subst hk
      have h1 : ((List.range arr.length).map fun i =>
          (⟨name, i * W, (i + 1) * W, arr.getD i 0, 0⟩ : Window)).filter
            (fun w => w.chromosome = name) =
          (List.range arr.length).map fun i =>
            (⟨name, i * W, (i + 1) * W, arr.getD i 0, 0⟩ : Window) := by
        rw [List.filter_eq_self]
        intro w hw
        simp only [List.mem_map] at hw
        obtain ⟨i, _, rfl⟩ := hw
        simp
      have h2 : (build_windows rest W).filter (fun w => w.chromosome = name) = [] := by
        rw [List.filter_eq_nil_iff]
        intro w hw hcontra
        have := build_windows_chrom W rest w hw
        simp only [decide_eq_true_eq] at hcontra
        rw [hcontra] at this
        exact hnd.1 this
      rw [h1, h2, List.append_nil]
    · rw [if_neg hk] at hlk
      have h1 : ((List.range karr.length).map fun i =>
          (⟨k, i * W, (i + 1) * W, karr.getD i 0, 0⟩ : Window)).filter
            (fun w => w.chromosome = name) = [] := by
        rw [List.filter_eq_nil_iff]
        intro w hw hcontra
        simp only [List.mem_map] at hw
        obtain ⟨i, _, rfl⟩ := hw
        simp only [decide_eq_true_eq] at hcontra
        exact hk hcontra.symm
      rw [h1, List.nil_append]
      exact ih name arr hnd.2 hlk

theorem map_getD_range (l : List Nat) :
    (List.range l.length).map (fun i => l.getD i 0) = l := by
  induction l with
  | nil => rfl
  | cons x xs ih =>
    rw [List.length_cons, List.range_succ_eq_map, List.map_cons, List.map_map]
    have h1 : (List.range xs.length).map ((fun i => (x :: xs).getD i 0) ∘ Nat.succ) =
        (List.range xs.length).map (fun i => xs.getD i 0) := by
      apply List.map_congr_left
      intro i hi
      simp [List.getD_cons_succ]
    rw [h1, ih]
    simp [List.getD]

theorem lookup_shape_eq : ∀ (l1 l2 : List (String × List Nat)),
    l1.map (fun p => (p.1, p.2.length)) = l2.map (fun p => (p.1, p.2.length)) →
    ∀ name : String, (l1.lookup name).map List.length = (l2.lookup name).map List.length := by
  intro l1
  induction l1 with
  | nil =>
    intro l2 h name
    cases l2 with
    | nil => rfl
    | cons q r2 => simp at h
  | cons p r1 ih =>
    intro l2 h name
    cases l2 with
    | nil => simp at h
    | cons q r2 =>
      simp only [List.map_cons, List.cons.injEq] at h
      obtain ⟨hpq, hr⟩ := h
      obtain ⟨k1, a1⟩ := p
      obtain ⟨k2, a2⟩ := q
      have hk : k1 = k2 := congrArg Prod.fst hpq
      have hl : a1.length = a2.length := congrArg Prod.snd hpq
      subst hk
      rw [lookup_cons_pair, lookup_cons_pair]
      by_cases hn : name = k1
      · rw [if_pos hn, if_pos hn]
        simpa using hl
      · rw [if_neg hn, if_neg hn]
        exact ih r2 hr name

/-- C4 counterexample: with declared chromosome length 10000 and window
size 10000 (the window size divides the length) the aggregator allocates
`10000 / 10000 + 1 = 2` windows, while `ceil(10000 / 10000) = 1`. -/
theorem C4_ceil_counterexample :
    ((build_windows (calculate_coverage_core [("c", 10000)] [] 10000 []).1 10000).filter
      (fun w => w.chromosome = "c")).length = 2 ∧
    (10000 + 10000 - 1) / 10000 = 1 ∧ (2 : Nat) ≠ 1 := by
  refine ⟨by decide, by decide, by decide⟩

/-- C4 amended: for every retained chromosome with declared length L the
Coverage Aggregator allocates (and the window list therefore contains)
exactly `L / W + 1` windows (floor division plus one, which equals
ceil(L / W) only when W does not divide L), non-overlapping and
contiguous, with window i spanning [i*W, (i+1)*W). -/
theorem C4_window_allocation (refs : List (String × Nat)) (chroms : List String)
    (window_size : Nat) (alns : List Aln) (name : String) (L : Nat)
    (hW : 0 < window_size) (hmem : (name, L) ∈ refs)
    (hnd : (refs.map Prod.fst).Nodup) (hfil : chrom_retained chroms name = true) :
    ∃ counts : List Nat,
      counts.length = L / window_size + 1 ∧
      (build_windows (calculate_coverage_core refs chroms window_size alns).1
        window_size).filter (fun w => w.chromosome = name) =
        (List.range (L / window_size + 1)).map fun i =>
          ⟨name, i * window_size, (i + 1) * window_size, counts.getD i 0, 0⟩ := by
  have hinit := lookup_init_coverage refs chroms window_size name L hmem hnd hfil
  have hne : ¬(init_coverage refs chroms window_size).isEmpty = true := by
    intro hcontra
    rw [List.isEmpty_iff] at hcontra
    rw [hcontra] at hinit
    simp at hinit
  have hcore : (calculate_coverage_core refs chroms window_size alns).1 =
      alns.foldl (cov_step (refs.map Prod.fst) window_size)
        (init_coverage refs chroms window_size) := by
    simp only [calculate_coverage_core]
    rw [if_neg hne]
  have hshape := cov_fold_shape (refs.map Prod.fst) window_size alns
    (init_coverage refs chroms window_size)
  have hlen := lookup_shape_eq _ _ hshape name
  rw [hinit] at hlen
  cases hlk : (alns.foldl (cov_step (refs.map Prod.fst) window_size)
      (init_coverage refs chroms window_size)).lookup name with
  | none =>
    rw [hlk] at hlen
    simp at hlen
  | some arr =>
    have harrlen : arr.length = L / window_size + 1 := by
      rw [hlk] at hlen
      simpa using hlen
    have hkeys : ((alns.foldl (cov_step (refs.map Prod.fst) window_size)
        (init_coverage refs chroms window_size)).map Prod.fst).Nodup := by
      have h1 : (alns.foldl (cov_step (refs.map Prod.fst) window_size)
          (init_coverage refs chroms window_size)).map Prod.fst =
          (init_coverage refs chroms window_size).map Prod.fst := by
        have h2 := congrArg (List.map Prod.fst) hshape
        simpa [List.map_map] using h2
      rw [h1]
      exact (init_coverage_keys_sublist refs chroms window_size).nodup hnd
    refine ⟨arr, harrlen, ?_⟩
    rw [hcore, build_windows_filter window_size _ name arr hkeys hlk, harrlen]

/-- C4 witness: one chromosome of length 25000 with window size 10000
gets 25000 / 10000 + 1 = 3 windows spanning [0,10000), [10000,20000),
[20000,30000). -/
theorem C4_window_allocation_witness :
    ∃ counts : List Nat,
      counts.length = 25000 / 10000 + 1 ∧
      (build_windows (calculate_coverage_core [("c", 25000)] [] 10000 []).1
        10000).filter (fun w => w.chromosome = "c") =
        (List.range (25000 / 10000 + 1)).map fun i =>
          ⟨"c", i * 10000, (i + 1) * 10000, counts.getD i 0, 0⟩ :=
  C4_window_allocation [("c", 25000)] [] 10000 [] "c" 25000
    (by decide) (by decide) (by decide) (by decide)

/-- C5: for valid inputs (every retained record's position within the
declared chromosome length), the sum of rawCoverage over a retained
chromosome's windows equals the number of alignment records that are not
unmapped, not duplicate, not secondary and whose reference index
resolves to that chromosome. -/
theorem C5_coverage_sum (refs : List (String × Nat)) (chroms : List String)
    (window_size : Nat) (alns : List Aln) (name : String) (L : Nat)
    (hW : 0 < window_size) (hmem : (name, L) ∈ refs)
    (hnd : (refs.map Prod.fst).Nodup) (hfil : chrom_retained chroms name = true)
    (hpos : ∀ a ∈ alns, retained_to (refs.map Prod.fst) name a = true →
      0 ≤ a.pos ∧ a.pos < (L : Int)) :
    (((build_windows (calculate_coverage_core refs chroms window_size alns).1
        window_size).filter (fun w => w.chromosome = name)).map (·.coverage)).sum =
      alns.countP (retained_to (refs.map Prod.fst) name) := by
  have hinit := lookup_init_coverage refs chroms window_size name L hmem hnd hfil
  have hne : ¬(init_coverage refs chroms window_size).isEmpty = true := by
    intro hcontra
    rw [List.isEmpty_iff] at hcontra
    rw [hcontra] at hinit
    simp at hinit
  have hcore : (calculate_coverage_core refs chroms window_size alns).1 =
      alns.foldl (cov_step (refs.map Prod.fst) window_size)
        (init_coverage refs chroms window_size) := by
    simp only [calculate_coverage_core]
    rw [if_neg hne]
  obtain ⟨arr2, hA, hB, hC⟩ := cov_fold_lookup_sum (refs.map Prod.fst) window_size name
    L hW alns (init_coverage refs chroms window_size)
    (List.replicate (L / window_size + 1) 0) hinit (by simp) hpos
  have hshape := cov_fold_shape (refs.map Prod.fst) window_size alns
    (init_coverage refs chroms window_size)
  have hkeys : ((alns.foldl (cov_step (refs.map Prod.fst) window_size)
      (init_coverage refs chroms window_size)).map Prod.fst).Nodup := by
    have h1 : (alns.foldl (cov_step (refs.map Prod.fst) window_size)
        (init_coverage refs chroms window_size)).map Prod.fst =
        (init_coverage refs chroms window_size).map Prod.fst := by
      have h2 := congrArg (List.map Prod.fst) hshape
      simpa [List.map_map] using h2
    rw [h1]
    exact (init_coverage_keys_sublist refs chroms window_size).nodup hnd
  rw [hcore, build_windows_filter window_size _ name arr2 hkeys hA, List.map_map]
  have hcomp : ((fun w => w.coverage) ∘ fun i =>
      (⟨name, i * window_size, (i + 1) * window_size, arr2.getD i 0, 0⟩ : Window)) =
      fun i => arr2.getD i 0 := rfl
  rw [hcomp, map_getD_range arr2, hC]
  simp

/-- C5 witness: one chromosome of length 25000, one retained mapped
record at position 0: the window coverage sums to the retained count 1. -/
theorem C5_coverage_sum_witness :
    (((build_windows (calculate_coverage_core [("c", 25000)] [] 10000
        [⟨0, 0, 60, 0, [], []⟩]).1 10000).filter
      (fun w => w.chromosome = "c")).map (·.coverage)).sum =
      [(⟨0, 0, 60, 0, [], []⟩ : Aln)].countP
        (retained_to ([("c", 25000)].map Prod.fst) "c") :=
  C5_coverage_sum [("c", 25000)] [] 10000 [⟨0, 0, 60, 0, [], []⟩] "c" 25000
    (by decide) (by decide) (by decide) (by decide) (by decide)

/-- Read info retained by `collect_reads_for_all_chromosomes`: position,
decoded sequence and quality list (the flag and cigar fields stored by
the source are never used downstream and are omitted). -/
structure Read where
  pos : Int
  seq : List Char
  qual : List Nat
deriving DecidableEq

/-- Per-position base counts, the pileup dict
`{'A': 0, 'C': 0, 'G': 0, 'T': 0, 'N': 0}` in key order. -/
structure Counts where
  a : Nat
  c : Nat
  g : Nat
  t : Nat
  n : Nat
deriving DecidableEq

/-- Count of one base key (0 for a character outside the dict, which the
source never queries). -/
def Counts.get (cn : Counts) (b : Char) : Nat :=
  match b with
  | 'A' => cn.a
  | 'C' => cn.c
  | 'G' => cn.g
  | 'T' => cn.t
  | 'N' => cn.n
  | _ => 0

/-- The pileup total depth `sum(bases.values())`. -/
def Counts.total (cn : Counts) : Nat := cn.a + cn.c + cn.g + cn.t + cn.n

/-- Base and quality that a read contributes at position `p`: the entry
`i = p - read_start` of `zip(seq, qual)` when that index exists (each
read contributes at most one base per position). -/
def read_base_at (r : Read) (p : Int) : Option (Char × Nat) :=
  let zs := r.seq.zip r.qual
  if 0 ≤ p - r.pos ∧ (p - r.pos).toNat < zs.length then
    some (zs.getD (p - r.pos).toNat ('A', 0))
  else none

/-- Pileup events at position `p` of the window `[ws, we)`: the source
skips empty-sequence reads and reads failing the window-overlap
prefilter (`read_end < window_start or read_start > window_end`), then
adds the uppercased base at `p` when its quality reaches the minimum.
The pileup dict has an entry for `p` exactly when this list is nonempty
(the entry is created before the base character is checked against the
count keys). -/
def pileup_events (min_base_quality : Nat) (ws we : Nat) (reads : List Read)
    (p : Int) : List Char :=
  reads.filterMap fun r =>
    if r.seq = [] then none
    else if r.pos + (r.seq.length : Int) < (ws : Int) ∨ (we : Int) < r.pos then none
    else
      match read_base_at r p with
      | none => none
      | some bq => if bq.2 < min_base_quality then none else some bq.1.toUpper

/-- The same per-position events without the window prefilter (proof
device: the prefilter never removes a base that lies inside the
window). -/
def pileup_events_all (min_base_quality : Nat) (reads : List Read) (p : Int) :
    List Char :=
  reads.filterMap fun r =>
    if r.seq = [] then none
    else
      match read_base_at r p with
      | none => none
      | some bq => if bq.2 < min_base_quality then none else some bq.1.toUpper

/-- Tally the events into the count dict: only A, C, G, T, N are
counted (`if base_upper in pileup[pos]`). -/
def counts_of (events : List Char) : Counts :=
  ⟨events.count 'A', events.count 'C', events.count 'G', events.count 'T',
    events.count 'N'⟩

/-- Python `max(bases.keys(), key=lambda b: bases[b])`: the first key in
dict order A, C, G, T, N carrying the maximal count. -/
def ref_base (cn : Counts) : Char :=
  ['C', 'G', 'T', 'N'].foldl (fun best b => if cn.get best < cn.get b then b else best) 'A'

/-- Variant record emitted by `call_variants_from_pileup` (output
position is 1-based). -/
structure Variant where
  chrom : String
  pos : Nat
  ref : Char
  alt : Char
  qual : ℚ
  type : String
  depth : Nat
  ref_count : Nat
  alt_count : Nat
  allele_freq : ℚ
deriving DecidableEq

/-- Exact real value of the source quality formula
`min(-10 * log10(max(0.01 ** alt_count, 1e-100)), 999)`: since
`0.01 ** k = 10 ^ (-2k)` and the inner max floors at `1e-100`, the score
is `min(20 * alt_count, 999)`. -/
def qual_score (alt_count : Nat) : ℚ := min (20 * (alt_count : ℚ)) 999

/-- Per-position variant emission of `call_variants_from_pileup`: skip
the position when the total depth is below `min_depth`; the majority
base is the implicit reference; each alternate base in A, C, G, T
distinct from the reference is emitted when its count reaches
`min_variant_reads` and its frequency `alt_count / total_depth` reaches
`min_allele_freq`. -/
def calls_at (chrom : String) (p : Nat) (cn : Counts)
    (min_depth min_variant_reads : Nat) (min_allele_freq : ℚ) : List Variant :=
  if cn.total < min_depth then []
  else
    let rb := ref_base cn
    ['A', 'C', 'G', 'T'].filterMap fun alt =>
      if alt = rb ∨ alt = 'N' then none
      else
        let ac := cn.get alt
        if ac < min_variant_reads then none
        else
          let af : ℚ := (ac : ℚ) / (cn.total : ℚ)
          if af < min_allele_freq then none
          else some ⟨chrom, p + 1, rb, alt, qual_score ac, "SNV", cn.total,
            cn.get rb, ac, af⟩

/-- One pileup window `[ws, we)` of `call_variants_from_pileup`:
`for pos in sorted(pileup.keys())` visits exactly the in-window
positions with a pileup entry, in ascending order. -/
def window_variants (chrom : String) (reads : List Read) (ws we : Nat)
    (min_depth min_base_quality min_variant_reads : Nat)
    (min_allele_freq : ℚ) : List Variant :=
  (List.range (we - ws)).flatMap fun off =>
    let p := ws + off
    let evs := pileup_events min_base_quality ws we reads (p : Int)
    if evs = [] then []
    else calls_at chrom p (counts_of evs) min_depth min_variant_reads min_allele_freq

/-- Port of `call_variants_from_pileup`.  The source hardcodes the
chunking window size 1000000 ("1MB windows"); it is a parameter here so
that the chunking-invariance claim can quantify over it, and
`call_variants_from_bam` below passes 1000000. -/
def call_variants_from_pileup (reads : List Read) (chrom_name : String)
    (chrom_len : Nat) (min_depth min_base_quality min_variant_reads : Nat)
    (min_allele_freq : ℚ) (window_size : Nat) : List Variant :=
  (List.range (chrom_len / window_size + 1)).flatMap fun window_idx =>
    let window_start := window_idx * window_size
    let window_end := min (window_start + window_size) chrom_len
    window_variants chrom_name reads window_start window_end
      min_depth min_base_quality min_variant_reads min_allele_freq

/-- Target references of `call_variants_from_bam`: enumerate the header
references and keep those passing the chromosome filter, as
`(ref_id, name, length)`. -/
def target_refs (chroms : List String) : Nat → List (String × Nat) →
    List (Nat × String × Nat)
  | _, [] => []
  | i, (n, l) :: rest =>
    (if chrom_retained chroms n then [(i, n, l)] else []) ++
      target_refs chroms (i + 1) rest

/-- Port of `collect_reads_for_all_chromosomes`, per reference id: the
single pass that appends each passing record to its chromosome bucket is
the per-bucket filter of the record stream (order preserved).  A record
is kept when its reference id matches, it is not
unmapped/duplicate/secondary, and its mapping quality reaches the
minimum. -/
def collect_reads_for_all_chromosomes (alns : List Aln)
    (min_mapping_quality : Nat) (ref_id : Nat) : List Read :=
  alns.filterMap fun a =>
    if a.refID = (ref_id : Int) ∧
        (a.is_unmapped || a.is_duplicate || a.is_secondary) = false ∧
        min_mapping_quality ≤ a.mapq then
      some ⟨a.pos, a.seq, a.qual⟩
    else none

/-- Result dict of `call_variants_from_bam` (the filter echo is
omitted). -/
structure VariantResult where
  variants : List Variant
  total_variants : Nat
  chromosomes_processed : List String
deriving DecidableEq

/-- Sort key of the final `variants.sort`: ascending lexicographic
(chromosome, position). -/
def variant_le (v1 v2 : Variant) : Prop :=
  v1.chrom < v2.chrom ∨ (v1.chrom = v2.chrom ∧ v1.pos ≤ v2.pos)

instance : DecidableRel variant_le := fun v1 v2 => by
  unfold variant_le
  infer_instance

/-- Port of `call_variants_from_bam` over the parsed header references
and the alignment-record stream: collect reads per target chromosome in
one pass, call variants per chromosome (skipping chromosomes with no
reads), concatenate, and sort by (chromosome, position). -/
def call_variants_from_bam (refs : List (String × Nat)) (chroms : List String)
    (min_depth min_base_quality min_mapping_quality min_variant_reads : Nat)
    (min_allele_freq : ℚ) (alns : List Aln) : VariantResult :=
  let targets := target_refs chroms 0 refs
  let variants := targets.flatMap fun tr =>
    let chrom_reads := collect_reads_for_all_chromosomes alns min_mapping_quality tr.1
    if chrom_reads = [] then []
    else call_variants_from_pileup chrom_reads tr.2.1 tr.2.2 min_depth
      min_base_quality min_variant_reads min_allele_freq 1000000
  let sorted_variants := List.insertionSort variant_le variants
  { variants := sorted_variants,
    total_variants := sorted_variants.length,
    chromosomes_processed := targets.map fun tr => tr.2.1 }

theorem ref_base_mem (cn : Counts) : ref_base cn ∈ ['A', 'C', 'G', 'T', 'N'] := by
  simp only [ref_base, List.foldl_cons, List.foldl_nil]
  split_ifs <;> simp

theorem ref_base_maximal (cn : Counts) (b : Char)
    (hb : b ∈ ['A', 'C', 'G', 'T', 'N']) : cn.get b ≤ cn.get (ref_base cn) := by
  fin_cases hb <;>
    (simp only [ref_base, List.foldl_cons, List.foldl_nil]
     split_ifs <;> simp_all [Counts.get] <;> omega)

theorem get_pair_le_total (cn : Counts) (b1 b2 : Char)
    (h1 : b1 ∈ ['A', 'C', 'G', 'T', 'N']) (h2 : b2 ∈ ['A', 'C', 'G', 'T', 'N'])
    (hne : b1 ≠ b2) : cn.get b1 + cn.get b2 ≤ cn.total := by
  fin_cases h1 <;> fin_cases h2 <;>
    simp_all [Counts.get, Counts.total] <;> omega

theorem calls_at_spec (chrom : String) (p : Nat) (cn : Counts)
    (min_depth min_variant_reads : Nat) (min_allele_freq : ℚ)
    (hmin : 1 ≤ min_variant_reads) :
    ∀ v ∈ calls_at chrom p cn min_depth min_variant_reads min_allele_freq,
      v.alt_count ≤ v.ref_count ∧ 0 < v.allele_freq ∧ v.allele_freq ≤ 1 / 2 ∧
        v.alt ∈ ['A', 'C', 'G', 'T'] ∧ v.alt ≠ v.ref ∧ v.alt ≠ 'N' ∧
        v.chrom = chrom ∧ v.pos = p + 1 := by
  intro v hv
  rw [calls_at] at hv
  by_cases htot : cn.total < min_depth
  · rw [if_pos htot] at hv
    exact absurd hv (List.not_mem_nil v)
  · rw [if_neg htot] at hv
    simp only [List.mem_filterMap] at hv
    obtain ⟨alt, halt, hf⟩ := hv
    by_cases h1 : alt = ref_base cn ∨ alt = 'N'
    · rw [if_pos h1] at hf
      exact absurd hf (by simp)
    · rw [if_neg h1] at hf
      by_cases h2 : cn.get alt < min_variant_reads
      · rw [if_pos h2] at hf
        exact absurd hf (by simp)
      · rw [if_neg h2] at hf
        by_cases h3 : ((cn.get alt : ℚ) / (cn.total : ℚ)) < min_allele_freq
        · rw [if_pos h3] at hf
          exact absurd hf (by simp)
        · rw [if_neg h3] at hf
          have hv2 := Option.some.inj hf
          subst hv2
          push_neg at h1
          obtain ⟨hne, hnN⟩ := h1
          have haltmem : alt ∈ ['A', 'C', 'G', 'T', 'N'] := by
            simp only [List.mem_cons, List.not_mem_nil, or_false] at halt
            rcases halt with rfl | rfl | rfl | rfl <;> simp
          have hac1 : 1 ≤ cn.get alt := le_trans hmin (not_lt.mp h2)
          have htot1 : 1 ≤ cn.total := le_trans hac1
            (by have := get_pair_le_total cn (ref_base cn) alt (ref_base_mem cn)
                  haltmem (fun h => hne h.symm)
                omega)
          have htotQ : (0 : ℚ) < (cn.total : ℚ) := by exact_mod_cast htot1
          have hacQ : (0 : ℚ) < (cn.get alt : ℚ) := by exact_mod_cast hac1
          have h2a : 2 * cn.get alt ≤ cn.total := by
            have hmax := ref_base_maximal cn alt haltmem
            have hpair := get_pair_le_total cn (ref_base cn) alt (ref_base_mem cn)
              haltmem (fun h => hne h.symm)
            omega
          refine ⟨ref_base_maximal cn alt haltmem, div_pos hacQ htotQ, ?_, halt, hne, hnN,
            rfl, rfl⟩
          rw [div_le_div_iff₀ htotQ (by norm_num : (0 : ℚ) < 2)]
          have : (cn.get alt : ℚ) * 2 ≤ (cn.total : ℚ) := by
            exact_mod_cast (by omega : cn.get alt * 2 ≤ cn.total)
          linarith

theorem mem_pileup_calls {reads : List Read} {chrom : String}
    {L minD minBQ minVR : Nat} {minAF : ℚ} {W : Nat} {v : Variant}
    (hv : v ∈ call_variants_from_pileup reads chrom L minD minBQ minVR minAF W) :
    ∃ (p : Nat) (cn : Counts), v ∈ calls_at chrom p cn minD minVR minAF := by
  simp only [call_variants_from_pileup, window_variants, List.mem_flatMap,
    List.mem_range] at hv
  obtain ⟨widx, hwidx, off, hoff, hv⟩ := hv
  by_cases he : pileup_events minBQ (widx * W) (min (widx * W + W) L) reads
      ((widx * W + off : Nat) : Int) = []
  · rw [if_pos he] at hv
    exact absurd hv (List.not_mem_nil v)
  · rw [if_neg he] at hv
    exact ⟨_, _, hv⟩

/-- C10: under minVariantReads ≥ 1, every emitted Variant has its
reference allele as a majority base of the pileup at its position, so
referenceCount ≥ alternateCount and the allele frequency lies in
(0, 1/2]; the alternate allele is one of A, C, G, T, distinct from the
reference allele and never 'N'. -/
theorem C10_variant_invariants (reads : List Read) (chrom_name : String)
    (chrom_len min_depth min_base_quality min_variant_reads : Nat)
    (min_allele_freq : ℚ) (window_size : Nat) (hmin : 1 ≤ min_variant_reads) :
    ∀ v ∈ call_variants_from_pileup reads chrom_name chrom_len min_depth
        min_base_quality min_variant_reads min_allele_freq window_size,
      v.alt_count ≤ v.ref_count ∧ 0 < v.allele_freq ∧ v.allele_freq ≤ 1 / 2 ∧
        v.alt ∈ ['A', 'C', 'G', 'T'] ∧ v.alt ≠ v.ref ∧ v.alt ≠ 'N' := by
  intro v hv
  obtain ⟨p, cn, hv2⟩ := mem_pileup_calls hv
  obtain ⟨h1, h2, h3, h4, h5, h6, _, _⟩ :=
    calls_at_spec chrom_name p cn min_depth min_variant_reads min_allele_freq hmin v hv2
  exact ⟨h1, h2, h3, h4, h5, h6⟩

/-- C10 witness: a pileup of three reads (two 'A', one 'G') at one
position with minVariantReads = 1 emits the variant A→G with
referenceCount 2 ≥ alternateCount 1 and frequency 1/3 ∈ (0, 1/2]. -/
theorem C10_variant_invariants_witness :
    (1 : Nat) ≤ 1 ∧
    ((⟨"c", 1, 'A', 'G', 20, "SNV", 3, 2, 1, 1 / 3⟩ : Variant) ∈
      call_variants_from_pileup [⟨0, ['A'], [30]⟩, ⟨0, ['A'], [30]⟩, ⟨0, ['G'], [30]⟩]
        "c" 1 1 0 1 0 1) ∧
    ((⟨"c", 1, 'A', 'G', 20, "SNV", 3, 2, 1, 1 / 3⟩ : Variant).alt_count ≤
        (⟨"c", 1, 'A', 'G', 20, "SNV", 3, 2, 1, 1 / 3⟩ : Variant).ref_count ∧
      0 < (⟨"c", 1, 'A', 'G', 20, "SNV", 3, 2, 1, 1 / 3⟩ : Variant).allele_freq ∧
      (⟨"c", 1, 'A', 'G', 20, "SNV", 3, 2, 1, 1 / 3⟩ : Variant).allele_freq ≤ 1 / 2 ∧
      (⟨"c", 1, 'A', 'G', 20, "SNV", 3, 2, 1, 1 / 3⟩ : Variant).alt ∈
        ['A', 'C', 'G', 'T'] ∧
      (⟨"c", 1, 'A', 'G', 20, "SNV", 3, 2, 1, 1 / 3⟩ : Variant).alt ≠
        (⟨"c", 1, 'A', 'G', 20, "SNV", 3, 2, 1, 1 / 3⟩ : Variant).ref ∧
      (⟨"c", 1, 'A', 'G', 20, "SNV", 3, 2, 1, 1 / 3⟩ : Variant).alt ≠ 'N') :=
  ⟨by decide, by with_unfolding_all decide,
    C10_variant_invariants [⟨0, ['A'], [30]⟩, ⟨0, ['A'], [30]⟩, ⟨0, ['G'], [30]⟩]
      "c" 1 1 0 1 0 1 (by decide) _ (by with_unfolding_all decide)⟩

theorem filterMap_congr_fun {α β : Type} (f g : α → Option β) (l : List α)
    (h : ∀ a ∈ l, f a = g a) : l.filterMap f = l.filterMap g := by
  induction l with
  | nil => rfl
  | cons a t ih =>
    simp only [List.filterMap_cons, h a (List.mem_cons_self a t),
      ih (fun x hx => h x (List.mem_cons_of_mem a hx))]

theorem flatMap_congr_fun {α β : Type} (f g : α → List β) (l : List α)
    (h : ∀ a ∈ l, f a = g a) : l.flatMap f = l.flatMap g := by
  induction l with
  | nil => rfl
  | cons a t ih =>
    simp only [List.flatMap_cons, h a (List.mem_cons_self a t),
      ih (fun x hx => h x (List.mem_cons_of_mem a hx))]

theorem pileup_events_eq (minBQ : Nat) (ws we : Nat) (reads : List Read) (p : Int)
    (hp1 : (ws : Int) ≤ p) (hp2 : p < (we : Int)) :
    pileup_events minBQ ws we reads p = pileup_events_all minBQ reads p := by
  unfold pileup_events pileup_events_all
  apply filterMap_congr_fun
  intro r hr
  by_cases hs : r.seq = []
  · rw [if_pos hs, if_pos hs]
  · rw [if_neg hs, if_neg hs]
    by_cases hskip : r.pos + (r.seq.length : Int) < (ws : Int) ∨ (we : Int) < r.pos
    · rw [if_pos hskip]
      cases hrb : read_base_at r p with
      | none => rfl
      | some bq =>
        exfalso
        rw [read_base_at] at hrb
        by_cases hc : 0 ≤ p - r.pos ∧ (p - r.pos).toNat < (r.seq.zip r.qual).length
        · obtain ⟨hc1, hc2⟩ := hc
          have hzlen : (r.seq.zip r.qual).length ≤ r.seq.length := by
            rw [List.length_zip]
            exact min_le_left _ _
          have hlt : (p - r.pos).toNat < r.seq.length := lt_of_lt_of_le hc2 hzlen
          rcases hskip with h | h
          · omega
          · omega
        · rw [if_neg hc] at hrb
          exact absurd hrb (by simp)
    · rw [if_neg hskip]

/-- Per-position variant calls over the unchunked pileup (proof device
for the chunking-invariance claim). -/
def pos_calls (chrom : String) (reads : List Read) (minBQ minD minVR : Nat)
    (minAF : ℚ) (p : Nat) : List Variant :=
  let evs := pileup_events_all minBQ reads (p : Int)
  if evs = [] then []
  else calls_at chrom p (counts_of evs) minD minVR minAF

theorem window_variants_eq (chrom : String) (reads : List Read)
    (minD minBQ minVR : Nat) (minAF : ℚ) (ws we : Nat) :
    window_variants chrom reads ws we minD minBQ minVR minAF =
      (List.range (we - ws)).flatMap fun off =>
        pos_calls chrom reads minBQ minD minVR minAF (ws + off) := by
  unfold window_variants pos_calls
  apply flatMap_congr_fun
  intro off hoff
  have hofflt : off < we - ws := List.mem_range.mp hoff
  have hp1 : (ws : Int) ≤ ((ws + off : Nat) : Int) := by push_cast; omega
  have hp2 : ((ws + off : Nat) : Int) < (we : Int) := by push_cast; omega
  dsimp only
  rw [pileup_events_eq minBQ ws we reads _ hp1 hp2]

theorem window_positions (W : Nat) (hW : 0 < W) (L : Nat) :
    ∀ n, n ≤ L / W →
      (List.range (n + 1)).flatMap (fun widx =>
        (List.range (min (widx * W + W) L - widx * W)).map fun off => widx * W + off) =
      List.range' 0 (min ((n + 1) * W) L) := by
  intro n
  induction n with
  | zero =>
    intro h
    have h1 : List.range 1 = [0] := rfl
    rw [h1]
    simp only [List.flatMap_cons, List.flatMap_nil, List.append_nil,
      Nat.zero_mul, Nat.zero_add, Nat.sub_zero, Nat.one_mul]
    have h2 : ∀ m : Nat, (List.range m).map (fun off => off) = List.range' 0 m := by
      intro m
      rw [List.range_eq_range']
      simp
    exact h2 (min W L)
  | succ n ih =>
    intro h
    have hn : n ≤ L / W := le_trans (Nat.le_succ n) h
    rw [List.range_succ, List.flatMap_append, ih hn]
    simp only [List.flatMap_cons, List.flatMap_nil, List.append_nil]
    have hle : (n + 1) * W ≤ L :=
      le_trans (Nat.mul_le_mul_right W h) (Nat.div_mul_le_self L W)
    rw [Nat.min_eq_left hle, ← List.range'_eq_map_range]
    have happ := List.range'_append_1 0 ((n + 1) * W)
      (min ((n + 1) * W + W) L - (n + 1) * W)
    rw [Nat.zero_add] at happ
    rw [happ]
    congr 1
    have h2 : (n + 1) * W ≤ min ((n + 1) * W + W) L := le_min (Nat.le_add_right _ _) hle
    rw [Nat.succ_mul (n + 1) W]
    omega

theorem pileup_positions (W : Nat) (hW : 0 < W) (L : Nat) :
    (List.range (L / W + 1)).flatMap (fun widx =>
      (List.range (min (widx * W + W) L - widx * W)).map fun off => widx * W + off) =
    List.range L := by
  rw [window_positions W hW L (L / W) (le_refl _)]
  have hmod : L / W * W + L % W = L := by
    have h0 := Nat.div_add_mod L W
    rw [Nat.mul_comm] at h0
    exact h0
  have hmodlt : L % W < W := Nat.mod_lt L hW
  have hge : L ≤ (L / W + 1) * W := by
    rw [Nat.succ_mul]
    omega
  rw [Nat.min_eq_right hge, ← List.range_eq_range']

/-- C9: the chunking window size of the pileup phase does not affect the
result: for any two positive chunk sizes, call_variants_from_pileup
returns the same variant list (both equal the unchunked per-position
scan). -/
theorem C9_chunking_invariance (reads : List Read) (chrom_name : String)
    (chrom_len min_depth min_base_quality min_variant_reads : Nat)
    (min_allele_freq : ℚ) (W1 W2 : Nat) (h1 : 0 < W1) (h2 : 0 < W2) :
    call_variants_from_pileup reads chrom_name chrom_len min_depth min_base_quality
      min_variant_reads min_allele_freq W1 =
    call_variants_from_pileup reads chrom_name chrom_len min_depth min_base_quality
      min_variant_reads min_allele_freq W2 := by
  have key : ∀ W, 0 < W →
      call_variants_from_pileup reads chrom_name chrom_len min_depth min_base_quality
        min_variant_reads min_allele_freq W =
      (List.range chrom_len).flatMap
        (pos_calls chrom_name reads min_base_quality min_depth min_variant_reads
          min_allele_freq) := by
    intro W hW
    simp only [call_variants_from_pileup]
    have step1 : ∀ widx ∈ List.range (chrom_len / W + 1),
        window_variants chrom_name reads (widx * W) (min (widx * W + W) chrom_len)
          min_depth min_base_quality min_variant_reads min_allele_freq =
        ((List.range (min (widx * W + W) chrom_len - widx * W)).map
          fun off => widx * W + off).flatMap
          (pos_calls chrom_name reads min_base_quality min_depth min_variant_reads
            min_allele_freq) := by
      intro widx _
      rw [window_variants_eq, List.flatMap_map]
    refine Eq.trans (flatMap_congr_fun _ _ _ step1) ?_
    rw [← List.flatMap_assoc, pileup_positions W hW chrom_len]
  rw [key W1 h1, key W2 h2]

/-- C9 witness: on a two-read pileup over a length-3 chromosome, chunk
sizes 1 and 2 produce the same variant list. -/
theorem C9_chunking_invariance_witness :
    (0 : Nat) < 1 ∧ (0 : Nat) < 2 ∧
    (call_variants_from_pileup [⟨0, ['A'], [30]⟩, ⟨0, ['C'], [30]⟩] "c" 3 1 0 1 0 1 =
     call_variants_from_pileup [⟨0, ['A'], [30]⟩, ⟨0, ['C'], [30]⟩] "c" 3 1 0 1 0 2) :=
  ⟨by decide, by decide,
    C9_chunking_invariance [⟨0, ['A'], [30]⟩, ⟨0, ['C'], [30]⟩] "c" 3 1 0 1 0 1 2
      (by decide) (by decide)⟩

theorem calls_at_fields (chrom : String) (p : Nat) (cn : Counts)
    (minD minVR : Nat) (minAF : ℚ) :
    ∀ v ∈ calls_at chrom p cn minD minVR minAF, v.chrom = chrom ∧ v.pos = p + 1 := by
  intro v hv
  rw [calls_at] at hv
  by_cases htot : cn.total < minD
  · rw [if_pos htot] at hv
    exact absurd hv (List.not_mem_nil v)
  · rw [if_neg htot] at hv
    simp only [List.mem_filterMap] at hv
    obtain ⟨alt, halt, hf⟩ := hv
    by_cases h1 : alt = ref_base cn ∨ alt = 'N'
    · rw [if_pos h1] at hf
      exact absurd hf (by simp)
    · rw [if_neg h1] at hf
      by_cases h2 : cn.get alt < minVR
      · rw [if_pos h2] at hf
        exact absurd hf (by simp)
      · rw [if_neg h2] at hf
        by_cases h3 : ((cn.get alt : ℚ) / (cn.total : ℚ)) < minAF
        · rw [if_pos h3] at hf
          exact absurd hf (by simp)
        · rw [if_neg h3] at hf
          have hv2 := Option.some.inj hf
          rw [← hv2]
          exact ⟨rfl, rfl⟩

theorem map_filterMap_sublist {α β : Type} (f : α → Option β) (g : β → α)
    (l : List α) (hfg : ∀ a b, f a = some b → g b = a) :
    ((l.filterMap f).map g).Sublist l := by
  induction l with
  | nil => simp
  | cons a t ih =>
    rw [List.filterMap_cons]
    cases hfa : f a with
    | none => exact ih.cons a
    | some b =>
      rw [List.map_cons, hfg a b hfa]
      exact ih.cons₂ a

theorem calls_at_alts_nodup (chrom : String) (p : Nat) (cn : Counts)
    (minD minVR : Nat) (minAF : ℚ) :
    ((calls_at chrom p cn minD minVR minAF).map (fun v => v.alt)).Nodup := by
  rw [calls_at]
  by_cases htot : cn.total < minD
  · rw [if_pos htot]
    simp
  · rw [if_neg htot]
    dsimp only
    refine List.Sublist.nodup
      (map_filterMap_sublist _ (fun v : Variant => v.alt) ['A', 'C', 'G', 'T'] ?hfg)
      (by decide)
    intro alt v h
    by_cases h1 : alt = ref_base cn ∨ alt = 'N'
    · rw [if_pos h1] at h
      exact absurd h (by simp)
    · rw [if_neg h1] at h
      by_cases h2 : cn.get alt < minVR
      · rw [if_pos h2] at h
        exact absurd h (by simp)
      · rw [if_neg h2] at h
        by_cases h3 : ((cn.get alt : ℚ) / (cn.total : ℚ)) < minAF
        · rw [if_pos h3] at h
          exact absurd h (by simp)
        · rw [if_neg h3] at h
          have hv2 := Option.some.inj h
          rw [← hv2]

theorem pairwise_of_alts_nodup (l : List Variant) (p : Nat)
    (hpos : ∀ v ∈ l, v.pos = p) (hnd : (l.map (fun v => v.alt)).Nodup) :
    l.Pairwise (fun v w => v.pos < w.pos ∨ (v.pos = w.pos ∧ v.alt ≠ w.alt)) := by
  induction l with
  | nil => exact List.Pairwise.nil
  | cons v t ih =>
    rw [List.map_cons, List.nodup_cons] at hnd
    refine List.Pairwise.cons ?_
      (ih (fun w hw => hpos w (List.mem_cons_of_mem v hw)) hnd.2)
    intro w hw
    right
    refine ⟨?_, ?_⟩
    · rw [hpos v (List.mem_cons_self v t), hpos w (List.mem_cons_of_mem v hw)]
    · intro heq
      exact hnd.1 (heq ▸ List.mem_map_of_mem (fun v => v.alt) hw)

theorem window_variants_fields (chrom : String) (reads : List Read) (ws we : Nat)
    (minD minBQ minVR : Nat) (minAF : ℚ) :
    ∀ v ∈ window_variants chrom reads ws we minD minBQ minVR minAF,
      v.chrom = chrom ∧ ws + 1 ≤ v.pos ∧ v.pos ≤ we := by
  intro v hv
  simp only [window_variants, List.mem_flatMap, List.mem_range] at hv
  obtain ⟨off, hoff, hv⟩ := hv
  by_cases he : pileup_events minBQ ws we reads ((ws + off : Nat) : Int) = []
  · rw [if_pos he] at hv
    exact absurd hv (List.not_mem_nil v)
  · rw [if_neg he] at hv
    obtain ⟨hc, hp⟩ := calls_at_fields chrom (ws + off) _ minD minVR minAF v hv
    refine ⟨hc, ?_, ?_⟩ <;> omega

theorem window_variants_pairwise (chrom : String) (reads : List Read) (ws we : Nat)
    (minD minBQ minVR : Nat) (minAF : ℚ) :
    (window_variants chrom reads ws we minD minBQ minVR minAF).Pairwise
      (fun v w => v.pos < w.pos ∨ (v.pos = w.pos ∧ v.alt ≠ w.alt)) := by
  rw [window_variants, List.pairwise_flatMap]
  constructor
  · intro off _
    dsimp only
    by_cases he : pileup_events minBQ ws we reads ((ws + off : Nat) : Int) = []
    · rw [if_pos he]
      exact List.Pairwise.nil
    · rw [if_neg he]
      refine pairwise_of_alts_nodup _ (ws + off + 1) ?_ (calls_at_alts_nodup _ _ _ _ _ _)
      intro w hw
      exact (calls_at_fields chrom (ws + off) _ minD minVR minAF w hw).2
  · have hp := List.sorted_lt_range (we - ws)
    refine hp.imp ?_
    intro i j hij x hx y hy
    dsimp only at hx hy
    by_cases he1 : pileup_events minBQ ws we reads ((ws + i : Nat) : Int) = []
    · rw [if_pos he1] at hx
      exact absurd hx (List.not_mem_nil x)
    · by_cases he2 : pileup_events minBQ ws we reads ((ws + j : Nat) : Int) = []
      · rw [if_pos he2] at hy
        exact absurd hy (List.not_mem_nil y)
      · rw [if_neg he1] at hx
        rw [if_neg he2] at hy
        left
        have hxp := (calls_at_fields chrom (ws + i) _ minD minVR minAF x hx).2
        have hyp := (calls_at_fields chrom (ws + j) _ minD minVR minAF y hy).2
        omega

theorem pileup_pairwise (reads : List Read) (chrom : String)
    (L minD minBQ minVR : Nat) (minAF : ℚ) (W : Nat) :
    (call_variants_from_pileup reads chrom L minD minBQ minVR minAF W).Pairwise
      (fun v w => v.pos < w.pos ∨ (v.pos = w.pos ∧ v.alt ≠ w.alt)) := by
  rw [call_variants_from_pileup, List.pairwise_flatMap]
  constructor
  · intro widx _
    dsimp only
    exact window_variants_pairwise chrom reads _ _ minD minBQ minVR minAF
  · have hp := List.sorted_lt_range (L / W + 1)
    refine hp.imp ?_
    intro i j hij x hx y hy
    dsimp only at hx hy
    left
    have hxb := (window_variants_fields chrom reads (i * W) (min (i * W + W) L)
      minD minBQ minVR minAF x hx).2.2
    have hyb := (window_variants_fields chrom reads (j * W) (min (j * W + W) L)
      minD minBQ minVR minAF y hy).2.1
    have hiw : i * W + W ≤ j * W := by
      have h1 : (i + 1) * W ≤ j * W := Nat.mul_le_mul_right W hij
      rw [Nat.succ_mul] at h1
      exact h1
    have hxle : x.pos ≤ i * W + W := le_trans hxb (min_le_left _ _)
    omega

theorem pileup_chrom_eq (reads : List Read) (chrom : String)
    (L minD minBQ minVR : Nat) (minAF : ℚ) (W : Nat) :
    ∀ v ∈ call_variants_from_pileup reads chrom L minD minBQ minVR minAF W,
      v.chrom = chrom := by
  intro v hv
  obtain ⟨p, cn, hv2⟩ := mem_pileup_calls hv
  exact (calls_at_fields chrom p cn minD minVR minAF v hv2).1

theorem target_refs_names_sublist (chroms : List String) :
    ∀ (i : Nat) (refs : List (String × Nat)),
      ((target_refs chroms i refs).map (fun tr => tr.2.1)).Sublist (refs.map Prod.fst) := by
  intro i refs
  induction refs generalizing i with
  | nil => simp [target_refs]
  | cons p rest ih =>
    obtain ⟨n, len⟩ := p
    simp only [target_refs, List.map_append, List.map_cons]
    by_cases hc : chrom_retained chroms n = true
    · rw [if_pos hc]
      simp only [List.map_cons, List.map_nil, List.singleton_append]
      exact (ih (i + 1)).cons₂ n
    · rw [if_neg hc]
      simp only [List.map_nil, List.nil_append]
      exact (ih (i + 1)).cons n

instance : IsTrans Variant variant_le :=
  ⟨by
    intro a b c hab hbc
    rcases hab with h | ⟨he, hp⟩ <;> rcases hbc with h2 | ⟨he2, hp2⟩
    · exact Or.inl (lt_trans h h2)
    · exact Or.inl (he2 ▸ h)
    · exact Or.inl (he ▸ h2)
    · exact Or.inr ⟨he.trans he2, le_trans hp hp2⟩⟩

instance : IsTotal Variant variant_le :=
  ⟨by
    intro a b
    rcases lt_trichotomy a.chrom b.chrom with h | h | h
    · exact Or.inl (Or.inl h)
    · rcases le_total a.pos b.pos with hp | hp
      · exact Or.inl (Or.inr ⟨h, hp⟩)
      · exact Or.inr (Or.inr ⟨h.symm, hp⟩)
    · exact Or.inr (Or.inl h)⟩

theorem from_bam_pre_pairwise (refs : List (String × Nat)) (chroms : List String)
    (minD minBQ minMQ minVR : Nat) (minAF : ℚ) (alns : List Aln)
    (hnd : (refs.map Prod.fst).Nodup) :
    ((target_refs chroms 0 refs).flatMap fun tr =>
      if collect_reads_for_all_chromosomes alns minMQ tr.1 = [] then []
      else call_variants_from_pileup (collect_reads_for_all_chromosomes alns minMQ tr.1)
        tr.2.1 tr.2.2 minD minBQ minVR minAF 1000000).Pairwise
      (fun v w => (v.chrom, v.pos, v.alt) ≠ (w.chrom, w.pos, w.alt)) := by
  have hchrom : ∀ (tr : Nat × String × Nat) (x : Variant),
      x ∈ (if collect_reads_for_all_chromosomes alns minMQ tr.1 = [] then []
        else call_variants_from_pileup (collect_reads_for_all_chromosomes alns minMQ tr.1)
          tr.2.1 tr.2.2 minD minBQ minVR minAF 1000000) → x.chrom = tr.2.1 := by
    intro tr x hx
    by_cases hre : collect_reads_for_all_chromosomes alns minMQ tr.1 = []
    · rw [if_pos hre] at hx
      exact absurd hx (List.not_mem_nil x)
    · rw [if_neg hre] at hx
      exact pileup_chrom_eq _ _ _ _ _ _ _ _ x hx
  rw [List.pairwise_flatMap]
  constructor
  · intro tr _
    by_cases hre : collect_reads_for_all_chromosomes alns minMQ tr.1 = []
    · rw [if_pos hre]
      exact List.Pairwise.nil
    · rw [if_neg hre]
      refine (pileup_pairwise _ _ _ _ _ _ _ _).imp ?_
      intro a b hab heq
      have hpos : a.pos = b.pos := congrArg (fun t => t.2.1) heq
      have halt : a.alt = b.alt := congrArg (fun t => t.2.2) heq
      rcases hab with h | ⟨_, h⟩
      · omega
      · exact h halt
  · have hnames : ((target_refs chroms 0 refs).map (fun tr => tr.2.1)).Nodup :=
      (target_refs_names_sublist chroms 0 refs).nodup hnd
    have hpw : (target_refs chroms 0 refs).Pairwise (fun t1 t2 => t1.2.1 ≠ t2.2.1) :=
      List.pairwise_map.mp hnames
    refine hpw.imp ?_
    intro t1 t2 hne x hx y hy heq
    have hx2 := hchrom t1 x hx
    have hy2 := hchrom t2 y hy
    exact hne (by rw [← hx2, ← hy2]; exact congrArg Prod.fst heq)

/-- C8: under unique reference names (as a valid BAM header requires),
the variant list returned by call_variants_from_bam is sorted ascending
by (chromosome, position) and contains no two variants with the same
(chromosome, position, alternateAllele) triple. -/
theorem C8_variants_sorted_nodup (refs : List (String × Nat)) (chroms : List String)
    (min_depth min_base_quality min_mapping_quality min_variant_reads : Nat)
    (min_allele_freq : ℚ) (alns : List Aln)
    (hnd : (refs.map Prod.fst).Nodup) :
    List.Sorted variant_le (call_variants_from_bam refs chroms min_depth
      min_base_quality min_mapping_quality min_variant_reads min_allele_freq
      alns).variants ∧
    ((call_variants_from_bam refs chroms min_depth min_base_quality
      min_mapping_quality min_variant_reads min_allele_freq alns).variants.map
        fun v => (v.chrom, v.pos, v.alt)).Nodup := by
  constructor
  · exact List.sorted_insertionSort variant_le _
  · have hpair := from_bam_pre_pairwise refs chroms min_depth min_base_quality
      min_mapping_quality min_variant_reads min_allele_freq alns hnd
    have hnodup := List.pairwise_map.mpr hpair
    have hperm := List.perm_insertionSort variant_le
      ((target_refs chroms 0 refs).flatMap fun tr =>
        if collect_reads_for_all_chromosomes alns min_mapping_quality tr.1 = [] then []
        else call_variants_from_pileup
          (collect_reads_for_all_chromosomes alns min_mapping_quality tr.1)
          tr.2.1 tr.2.2 min_depth min_base_quality min_variant_reads min_allele_freq
          1000000)
    exact (hperm.map fun v : Variant => (v.chrom, v.pos, v.alt)).nodup_iff.mpr hnodup

/-- C8 witness: one chromosome of length 2, one mapped read ('A' at
position 0), permissive filters (minVariantReads 0): the returned
variants are sorted and their (chrom, pos, alt) triples are distinct. -/
theorem C8_variants_sorted_nodup_witness :
    ([("c", 2)].map Prod.fst).Nodup ∧
    List.Sorted variant_le (call_variants_from_bam [("c", 2)] [] 1 0 0 0 0
      [⟨0, 0, 60, 0, ['A'], [30]⟩]).variants ∧
    ((call_variants_from_bam [("c", 2)] [] 1 0 0 0 0
      [⟨0, 0, 60, 0, ['A'], [30]⟩]).variants.map
        fun v => (v.chrom, v.pos, v.alt)).Nodup :=
  ⟨by decide,
    (C8_variants_sorted_nodup [("c", 2)] [] 1 0 0 0 0 [⟨0, 0, 60, 0, ['A'], [30]⟩]
      (by decide)).1,
    (C8_variants_sorted_nodup [("c", 2)] [] 1 0 0 0 0 [⟨0, 0, 60, 0, ['A'], [30]⟩]
      (by decide)).2⟩
